import Mathlib

/-!
Shallow embedding of the netvent serialization library (src/netvent.hpp).

The C++ core is a tagged-union `Value` over
{int, float, bool, std::string, shared_ptr<Table>}, a `Table` wrapping a
`std::map<Value, Value>` plus an `is_array` flag, a recursive serializer and a
recursive-descent, depth-counting parser.  The embedding below follows the
source line by line:

* C++ `int` is modelled as `Int` (std::stoi range checks are explicit);
* C++ `float` is modelled as an exact rational `ℚ`.  The binary32 rounding
  performed by `std::stof`, NaN, and the float's signed zero are not modelled;
  every place where that abstraction shows is marked in a comment;
* `std::string` is modelled as `String` / `List Char` (UTF-8 code points;
  C++ compares bytes, which orders identically for valid UTF-8);
* `shared_ptr<Table>` identity (the raw pointer that `operator<`/`operator==`
  compare) is modelled as a `Nat` identity token stored beside the table;
* C++ exceptions are modelled by `Except Err`.

The mutual inductive uses a bespoke `Entries` list so that every function on
values is structurally recursive and kernel-reducible.
-/

namespace Netvent

/-- Characters the C locale treats as whitespace (isspace), as skipped by
std::stoi / std::stof before the number. -/
def isCSpace (c : Char) : Bool :=
  c = ' ' || c = '\t' || c = '\n' || c = '\x0b' || c = '\x0c' || c = '\r'

/-- Characters removed by the parser's trimming, which uses
find_first_not_of(" \t") / find_last_not_of(" \t"): space and tab only. -/
def isWT (c : Char) : Bool := c = ' ' || c = '\t'

/-- Model of the C++ item trimming: erase the longest space/tab prefix and
suffix (erase with find_first_not_of / find_last_not_of on " \t"). -/
def trimChars (cs : List Char) : List Char :=
  ((cs.dropWhile isWT).reverse.dropWhile isWT).reverse

/-- The character for decimal digit d (d < 10). -/
def digitC (d : Nat) : Char := Char.ofNat (48 + d)

/-- Decimal digits of n, most significant first, for n > 0; fuel-structural so
that it kernel-reduces (fuel ≥ number of digits suffices). -/
def natCharsAux : Nat → Nat → List Char
  | 0, _ => []
  | fuel + 1, n => if n = 0 then [] else natCharsAux fuel (n / 10) ++ [digitC (n % 10)]

/-- Decimal rendering of a natural number, as operator<< prints it. -/
def natChars (n : Nat) : List Char := if n = 0 then ['0'] else natCharsAux (n + 1) n

/-- Decimal rendering of an int, as `ss << as_int()` prints it. -/
def intChars (n : Int) : List Char :=
  if n < 0 then '-' :: natChars n.natAbs else natChars n.natAbs

/-- Numeric value of a decimal digit character. -/
def digVal (c : Char) : Nat := c.toNat - 48

/-- Left fold of decimal digits onto an accumulator: the value strtol/strtof
build while scanning a digit run. -/
def pushVal (acc : Nat) (cs : List Char) : Nat :=
  cs.foldl (fun a c => 10 * a + digVal c) acc

/-- INT_MIN for the 32-bit int used by the C++ code. -/
def INT_MIN : Int := -(2 ^ 31)

/-- INT_MAX for the 32-bit int used by the C++ code. -/
def INT_MAX : Int := 2 ^ 31 - 1

/-- Sign handling shared by strtol and strtof: consume one leading '-' or '+',
report whether the number is negated. -/
def signSplit (cs : List Char) : Bool × List Char :=
  match cs with
  | c :: rest => if c = '-' then (true, rest) else if c = '+' then (false, rest) else (false, cs)
  | [] => (false, [])

/-- Model of std::stoi (base 10): skip leading whitespace, optional sign, then
the longest run of decimal digits (later characters are ignored — stoi parses
a prefix); no digits raises invalid_argument, a value outside int range raises
out_of_range; both are modelled as none. -/
def stoiM (cs : List Char) : Option Int :=
  let signed := signSplit (cs.dropWhile isCSpace)
  let ds := signed.2.takeWhile Char.isDigit
  if ds.isEmpty then none
  else
    let v : Int := if signed.1 then -(pushVal 0 ds : Int) else (pushVal 0 ds : Int)
    if v < INT_MIN ∨ INT_MAX < v then none else some v

/-- Largest finite binary32 value, (2 − 2⁻²³) · 2¹²⁷, as a rational. -/
def FLOAT_MAX : ℚ := (2 ^ 24 - 1) * 2 ^ 104

/-- Exponent part of a float literal: after the mantissa, strtof consumes
an optional e/E, optional sign and at least one digit (otherwise it backs off
and the exponent is 0). -/
def expVal (cs : List Char) : Int :=
  match cs with
  | c :: rest =>
    if c = 'e' ∨ c = 'E' then
      let signed := signSplit rest
      let ds := signed.2.takeWhile Char.isDigit
      if ds.isEmpty then 0
      else if signed.1 then -(pushVal 0 ds : Int) else (pushVal 0 ds : Int)
    else 0
  | [] => 0

/-- Fractional part of a float literal: when the character after the integer
digits is '.', the digit run after it; otherwise nothing.  Returns the digits
and the remainder of the input. -/
def dotSplit (cs : List Char) : List Char × List Char :=
  match cs with
  | c :: rest =>
    if c = '.' then (rest.takeWhile Char.isDigit, rest.dropWhile Char.isDigit) else ([], cs)
  | [] => ([], [])

/-- Model of std::stof on decimal inputs: skip leading whitespace, optional
sign, digits with an optional fractional part (at least one digit overall),
optional exponent; later characters are ignored (strtof parses a prefix).
The hex, inf and nan forms the C library also accepts are outside the model,
as is underflow reporting; overflow beyond the float range raises
out_of_range, modelled as none.  The result is the exact rational value of
the literal — the rounding to the nearest binary32 is not modelled. -/
def stofM (cs : List Char) : Option ℚ :=
  let signed := signSplit (cs.dropWhile isCSpace)
  let ip := signed.2.takeWhile Char.isDigit
  let cs3 := signed.2.dropWhile Char.isDigit
  let fracd := dotSplit cs3
  if ip.isEmpty ∧ fracd.1.isEmpty then none
  else
    let mant : ℚ := (pushVal 0 ip : ℚ) + (pushVal 0 fracd.1 : ℚ) / 10 ^ fracd.1.length
    let q : ℚ := (if signed.1 then -1 else 1) * mant * 10 ^ expVal fracd.2
    if FLOAT_MAX < |q| then none else some q

/-- Round a rational to the nearest integer, ties to even: what the correctly
rounded decimal formatting of a binary32 does at the last kept digit. -/
def rhe (x : ℚ) : Int :=
  let f := ⌊x⌋
  if x - f < 1 / 2 then f
  else if (1 : ℚ) / 2 < x - f then f + 1
  else if f % 2 = 0 then f else f + 1

/-- Model of `ss << std::fixed << std::setprecision(1) << f`: the value
rounded to one decimal digit.  A negative float rounding to 0 would print
"-0.0" through its sign bit; the rational model has no signed zero, so the
sign here comes from the rounded value (the one place the ℚ abstraction is
visible in output). -/
def format1Chars (q : ℚ) : List Char :=
  let n := rhe (10 * q)
  (if n < 0 then ['-'] else []) ++ natChars (n.natAbs / 10) ++ '.' :: [digitC (n.natAbs % 10)]

mutual
/-- The C++ `Value`: std::variant<int, float, bool, std::string,
shared_ptr<Table>>, in declaration order.  `vtable` carries a `Nat` identity
token modelling the shared_ptr's address (what the comparison operators
compare) beside the pointee. -/
inductive Value where
  | vint : Int → Value
  | vfloat : ℚ → Value
  | vbool : Bool → Value
  | vstr : String → Value
  | vtable : Nat → Table → Value
  deriving DecidableEq
/-- The C++ `Table`: a std::map<Value, Value> (kept as an ordered entry list)
plus the is_array flag. -/
inductive Table where
  | mk : Entries → Bool → Table
  deriving DecidableEq
/-- The ordered key/value entry list of a Table's std::map. -/
inductive Entries where
  | nil : Entries
  | cons : Value → Value → Entries → Entries
  deriving DecidableEq
end

/-- std::variant::index() of the active member. -/
def vidx : Value → Nat
  | .vint _ => 0
  | .vfloat _ => 1
  | .vbool _ => 2
  | .vstr _ => 3
  | .vtable _ _ => 4

/-- One step of the byte comparison std::string::operator< performs,
on code points (for valid UTF-8, code-point order equals byte order). -/
def chLt (c d : Char) : Bool := decide (c.toNat < d.toNat)

/-- std::string lexicographic operator<, character by character. -/
def strLt : List Char → List Char → Bool
  | [], [] => false
  | [], _ :: _ => true
  | _ :: _, [] => false
  | c :: cs, d :: ds => if chLt c d then true else if chLt d c then false else strLt cs ds

/-- The C++ operator<(const Value&, const Value&): variant index first, then
the payload's natural order; bools compare as ints (false < true); tables
compare by shared_ptr address (the identity token). -/
def ltValue (lhs rhs : Value) : Bool :=
  if vidx lhs ≠ vidx rhs then decide (vidx lhs < vidx rhs)
  else
    match lhs, rhs with
    | .vint a, .vint b => decide (a < b)
    | .vfloat a, .vfloat b => decide (a < b)
    | .vbool a, .vbool b => !a && b
    | .vstr a, .vstr b => strLt a.data b.data
    | .vtable a _, .vtable b _ => decide (a < b)
    | _, _ => false

/-- The C++ operator==(const Value&, const Value&): false across variants,
payload equality within one, tables by shared_ptr address; the final
`return true` of the C++ is unreachable (every index is covered). -/
def eqValue (lhs rhs : Value) : Bool :=
  if vidx lhs ≠ vidx rhs then false
  else
    match lhs, rhs with
    | .vint a, .vint b => decide (a = b)
    | .vfloat a, .vfloat b => decide (a = b)
    | .vbool a, .vbool b => a == b
    | .vstr a, .vstr b => decide (a = b)
    | .vtable a _, .vtable b _ => decide (a = b)
    | _, _ => true

/-- std::map insert-or-assign as performed by `map[key] = value`: descend the
ordered entries by operator<; on an equivalent key (neither side less) the
stored key is kept and the mapped value replaced. -/
def mapInsert (k v : Value) : Entries → Entries
  | .nil => .cons k v .nil
  | .cons k2 v2 rest =>
    if ltValue k k2 then .cons k v (.cons k2 v2 rest)
    else if ltValue k2 k then .cons k2 v2 (mapInsert k v rest)
    else .cons k2 v rest

/-- std::map operator[] access: insert a default value (Value() is Int 0) when
the key is absent, leave the map unchanged when it is present. -/
def mapAccess (k : Value) : Entries → Entries
  | .nil => .cons k (.vint 0) .nil
  | .cons k2 v2 rest =>
    if ltValue k k2 then .cons k (.vint 0) (.cons k2 v2 rest)
    else if ltValue k2 k then .cons k2 v2 (mapAccess k rest)
    else .cons k2 v2 rest

/-- The entry list of a table. -/
def Table.entries : Table → Entries
  | .mk es _ => es

/-- Table::get_is_array. -/
def Table.get_is_array : Table → Bool
  | .mk _ ia => ia

/-- Effect on the table of `t[key]` (Table::operator[] delegates to
std::map::operator[], auto-vivifying an absent key to Value(), i.e. Int 0). -/
def Table.access : Table → Value → Table
  | .mk es ia, k => .mk (mapAccess k es) ia

/-- Effect on the table of `t[key] = v`. -/
def Table.set : Table → Value → Value → Table
  | .mk es ia, k, v => .mk (mapInsert k v es) ia

/-- The values of the entries in map order (pair.second during iteration). -/
def valuesE : Entries → List Value
  | .nil => []
  | .cons _ v rest => v :: valuesE rest

/-- The keys of the entries in map order. -/
def keysE : Entries → List Value
  | .nil => []
  | .cons k _ rest => k :: keysE rest

/-- The entries as a list of pairs, in map order. -/
def pairsE : Entries → List (Value × Value)
  | .nil => []
  | .cons k v rest => (k, v) :: pairsE rest

/-- Table::get_data: array mode returns the values in key order as a vector,
map mode returns the map itself. -/
def Table.get_data : Table → List (Value × Value) ⊕ List Value
  | .mk es true => .inr (valuesE es)
  | .mk es false => .inl (pairsE es)

/-- The loop of the Table(const std::vector<Value>&) constructor:
`data[Value(i)] = d[i]` for i = 0, 1, …. -/
def ofVectorAux : List Value → Nat → Entries → Entries
  | [], _, m => m
  | v :: rest, i, m => ofVectorAux rest (i + 1) (mapInsert (.vint i) v m)

/-- Table::Table(const std::vector<Value>&): insert under consecutive integer
keys and set is_array. -/
def Table.ofVector (vs : List Value) : Table := .mk (ofVectorAux vs 0 .nil) true

/-- The invariant claimed for array-mode tables: the keys are exactly
Value(0), Value(1), …, Value(n−1) in order. -/
def keysConsecutive : Entries → Nat → Bool
  | .nil, _ => true
  | .cons k _ rest, i => k == .vint i && keysConsecutive rest (i + 1)

/-- A table in array mode whose keys are exactly 0..n−1; map-mode tables are
unconstrained by the array invariant. -/
def arrayInv : Table → Bool
  | .mk es true => keysConsecutive es 0
  | .mk _ false => true

mutual
/-- Value::serialize, producing the character list of the C++ string. -/
def serializeV : Value → List Char
  | .vint n => intChars n
  | .vfloat q => format1Chars q
  | .vbool b => if b then "true".data else "false".data
  | .vstr s => '"' :: s.data ++ ['"']
  | .vtable _ t => serializeT t
/-- Table::serialize: array mode emits the mapped values between square
brackets, map mode key=value pairs between braces, both comma separated in
map iteration order with no trailing comma. -/
def serializeT : Table → List Char
  | .mk es true => '[' :: serializeArrE es ++ [']']
  | .mk es false => '{' :: serializeObjE es ++ ['}']
/-- The comma-joined serialized values of an array table's entries. -/
def serializeArrE : Entries → List Char
  | .nil => []
  | .cons _ v .nil => serializeV v
  | .cons _ v (.cons k2 v2 rest) => serializeV v ++ ',' :: serializeArrE (.cons k2 v2 rest)
/-- The comma-joined serialized key=value pairs of a map table's entries. -/
def serializeObjE : Entries → List Char
  | .nil => []
  | .cons k v .nil => serializeV k ++ '=' :: serializeV v
  | .cons k v (.cons k2 v2 rest) =>
    serializeV k ++ '=' :: serializeV v ++ ',' :: serializeObjE (.cons k2 v2 rest)
end

/-- Value::serialize as a String. -/
def Value.serialize (v : Value) : String := ⟨serializeV v⟩

/-- Table::serialize as a String. -/
def Table.serialize (t : Table) : String := ⟨serializeT t⟩

/-- The runtime_error exits of the parser, one per throw site. -/
inductive Err where
  | emptyData
  | malformedArray
  | malformedTable
  | missingEq
  | unknownType
  deriving DecidableEq

/-- Decidable equality of parse outcomes, so that concrete parses can be
checked by evaluation. -/
instance instDecEqExcept {e a : Type} [DecidableEq e] [DecidableEq a] :
    DecidableEq (Except e a) := fun x y =>
  match x, y with
  | .error e1, .error e2 =>
    if h : e1 = e2 then .isTrue (by rw [h]) else
      .isFalse (fun hc => by injection hc with h2; exact h h2)
  | .error _, .ok _ => .isFalse (fun hc => Except.noConfusion hc)
  | .ok _, .error _ => .isFalse (fun hc => Except.noConfusion hc)
  | .ok a1, .ok a2 =>
    if h : a1 = a2 then .isTrue (by rw [h]) else
      .isFalse (fun hc => by injection hc with h2; exact h h2)

/-- Depth change of one character in the parser's flat scan: any opening
bracket increments, any closing bracket decrements, kind not distinguished. -/
def deltaC (c : Char) : Int :=
  if c = '[' ∨ c = '{' then 1 else if c = ']' ∨ c = '}' then -1 else 0

/-- The character scan of Table::deserialize: split the content at commas
that occur at depth 0, the depth being a single plain int counter. -/
def splitTopAux : List Char → Int → List Char → List (List Char)
  | [], _, cur => [cur.reverse]
  | c :: rest, depth, cur =>
    if c = '[' ∨ c = '{' then splitTopAux rest (depth + 1) (c :: cur)
    else if c = ']' ∨ c = '}' then splitTopAux rest (depth - 1) (c :: cur)
    else if c = ',' ∧ depth = 0 then cur.reverse :: splitTopAux rest depth []
    else splitTopAux rest depth (c :: cur)

/-- The segments of a table body between top-level commas (the final segment
is the substring after the last top-level comma). -/
def splitTop (cs : List Char) : List (List Char) := splitTopAux cs 0 []

/-- item.find('=') followed by the substr pair: the part before the first '='
and the part after it; none when no '=' occurs. -/
def splitFirstEq : List Char → Option (List Char × List Char)
  | [] => none
  | c :: rest =>
    if c = '=' then some ([], rest)
    else (splitFirstEq rest).map fun p => (c :: p.1, p.2)

/-- The numeric attempt of Value::deserialize: stof when the fragment contains
a '.', stoi otherwise; none models the caught exception. -/
def numM (cs : List Char) : Option Value :=
  if cs.contains '.' then (stofM cs).map .vfloat else (stoiM cs).map .vint

/-- The per-segment loop body of the array branch of Table::deserialize:
trim, skip if empty, else recursively parse and push. -/
def parseItems (p : List Char → Except Err Value) : List (List Char) → Except Err (List Value)
  | [] => .ok []
  | seg :: rest =>
    let item := trimChars seg
    if item.isEmpty then parseItems p rest
    else do
      let v ← p item
      let vs ← parseItems p rest
      .ok (v :: vs)

/-- The per-segment loop body of the object branch of Table::deserialize:
trim, skip if empty, split at the first '=' (throwing when there is none),
trim both sides, skip if either is empty, else parse both and insert.
The C++ `map[parse key] = parse value` evaluates both sides before the
insert; when both would throw, which exception surfaces depends on the
evaluation order — the model parses the key first, and no claim depends on
the choice. -/
def parsePairs (p : List Char → Except Err Value) :
    List (List Char) → Entries → Except Err Entries
  | [], acc => .ok acc
  | seg :: rest, acc =>
    let item := trimChars seg
    if item.isEmpty then parsePairs p rest acc
    else
      match splitFirstEq item with
      | none => .error .missingEq
      | some kv =>
        let key := trimChars kv.1
        let val := trimChars kv.2
        if key.isEmpty ∨ val.isEmpty then parsePairs p rest acc
        else do
          let kp ← p key
          let vp ← p val
          parsePairs p rest (mapInsert kp vp acc)

mutual
/-- Value::deserialize on a character list.  The fuel argument only makes the
recursion structural; any fuel above the input length gives the function's
value (each recursive parse is on a strictly shorter fragment).  The chain:
numeric attempt, true/false literals, quoted string, table when the fragment
starts with a bracket, otherwise the whole fragment as an unquoted string.
Each parsed table is a fresh make_shared allocation; the model gives every
parser-created table the identity token 0 (no parsed table is ever compared
by identity in the claims). -/
def deserializeVF : Nat → List Char → Except Err Value
  | 0, _ => .error .emptyData
  | fuel + 1, cs =>
    if cs.isEmpty then .error .emptyData
    else
      match numM cs with
      | some v => .ok v
      | none =>
        if cs = "true".data then .ok (.vbool true)
        else if cs = "false".data then .ok (.vbool false)
        else if 2 ≤ cs.length ∧ cs.head? = some '"' ∧ cs.getLast? = some '"' then
          .ok (.vstr ⟨(cs.drop 1).dropLast⟩)
        else if cs.head? = some '[' ∨ cs.head? = some '{' then
          (deserializeTF fuel cs).map (.vtable 0)
        else .ok (.vstr ⟨cs⟩)
/-- Table::deserialize on a character list (fuel as in deserializeVF): check
the leading and trailing bracket character, strip them, split the interior at
top-level commas and run the per-segment loop; '[' builds Table(vector),
'{' builds a map table; any other first character is "Unknown type". -/
def deserializeTF : Nat → List Char → Except Err Table
  | 0, _ => .error .emptyData
  | fuel + 1, cs =>
    if cs.isEmpty then .error .emptyData
    else if cs.head? = some '[' then
      if cs.length < 2 ∨ ¬cs.getLast? = some ']' then .error .malformedArray
      else if cs.length = 2 then .ok (Table.ofVector [])
      else
        (parseItems (fun l => deserializeVF fuel l) (splitTop ((cs.drop 1).dropLast))).map
          Table.ofVector
    else if cs.head? = some '{' then
      if cs.length < 2 ∨ ¬cs.getLast? = some '}' then .error .malformedTable
      else if cs.length = 2 then .ok (.mk .nil false)
      else
        (parsePairs (fun l => deserializeVF fuel l) (splitTop ((cs.drop 1).dropLast)) .nil).map
          (fun m => .mk m false)
    else .error .unknownType
end

/-- Value::deserialize on a String (fuel = length + 1 is always sufficient). -/
def Value.deserialize (s : String) : Except Err Value :=
  deserializeVF (s.data.length + 1) s.data

/-- Table::deserialize on a String. -/
def Table.deserialize (s : String) : Except Err Table :=
  deserializeTF (s.data.length + 1) s.data

mutual
/-- What one serialize/deserialize round trip does to a value: floats are
replaced by their one-decimal reading, parsed tables carry identity token 0,
everything else is reproduced exactly. -/
def normV : Value → Value
  | .vint n => .vint n
  | .vfloat q => .vfloat ((rhe (10 * q) : ℚ) / 10)
  | .vbool b => .vbool b
  | .vstr s => .vstr s
  | .vtable _ t => .vtable 0 (normT t)
/-- Round-trip image of a table. -/
def normT : Table → Table
  | .mk es ia => .mk (normE es) ia
/-- Round-trip image of an entry list. -/
def normE : Entries → Entries
  | .nil => .nil
  | .cons k v rest => .cons (normV k) (normV v) (normE rest)
end

mutual
/-- Observational equivalence used by the round-trip claim: same variant,
identical scalar content, floats compared after formatting to one decimal,
table identity ignored. -/
def obsEqV : Value → Value → Bool
  | .vint a, .vint b => a == b
  | .vfloat a, .vfloat b => format1Chars a == format1Chars b
  | .vbool a, .vbool b => a == b
  | .vstr a, .vstr b => a == b
  | .vtable _ t, .vtable _ u => obsEqT t u
  | _, _ => false
/-- Observational equivalence of tables: same mode, entrywise equivalent. -/
def obsEqT : Table → Table → Bool
  | .mk es ia, .mk fs ib => ia == ib && obsEqE es fs
/-- Observational equivalence of entry lists. -/
def obsEqE : Entries → Entries → Bool
  | .nil, .nil => true
  | .cons k v r, .cons k2 v2 r2 => obsEqV k k2 && obsEqV v v2 && obsEqE r r2
  | _, _ => false
end

/-- Characters that survive a round trip inside a table body unprotected: a
string containing a quote breaks the quoted-string reading, a comma splits
the segment scan, a bracket corrupts the depth counter. -/
def safeChar (c : Char) : Bool :=
  !(c = '"' || c = ',' || c = '[' || c = ']' || c = '{' || c = '}')

/-- A string all of whose characters are safe inside a serialized table. -/
def safeStr (s : String) : Bool := s.data.all safeChar

/-- A value acceptable as a map key for the round trip: not a table (no
identity comparison required), within the scalar bounds, and if a string also
free of '=' (the first '=' of a segment is the key/value separator). -/
def mapKeyOK : Value → Bool
  | .vint n => decide (INT_MIN ≤ n ∧ n ≤ INT_MAX)
  | .vfloat q => decide (|q| ≤ 2 ^ 127)
  | .vbool _ => true
  | .vstr s => safeStr s && s.data.all (fun c => !(c = '='))
  | .vtable _ _ => false

mutual
/-- The constructible values the round-trip claim quantifies over, after the
exclusions its counterexamples force: ints within int32 range, floats within
the binary32 range, strings made of safe characters, and tables well formed. -/
def wfV : Value → Bool
  | .vint n => decide (INT_MIN ≤ n ∧ n ≤ INT_MAX)
  | .vfloat q => decide (|q| ≤ 2 ^ 127)
  | .vbool _ => true
  | .vstr s => safeStr s
  | .vtable _ t => wfT t
/-- Well-formed tables: array mode has consecutive integer keys starting at 0
(the vector constructor's invariant) and well-formed values; map mode has
admissible keys that remain strictly sorted after the round trip's float
rounding, and well-formed values. -/
def wfT : Table → Bool
  | .mk es true => wfArrE es 0
  | .mk es false => wfMapE es
/-- Array-mode entries: key i at position i, values well formed. -/
def wfArrE : Entries → Nat → Bool
  | .nil, _ => true
  | .cons k v rest, i => k == .vint i && wfV v && wfArrE rest (i + 1)
/-- Map-mode entries: every key admissible and below every later key both
before and after normalization (pairwise, as std::map keeps them), values
well formed. -/
def wfMapE : Entries → Bool
  | .nil => true
  | .cons k v rest =>
    mapKeyOK k && wfV v && keysAbove k rest && keysAboveN (normV k) rest && wfMapE rest
/-- Every key of the entries is strictly above k in the Value order. -/
def keysAbove (k : Value) : Entries → Bool
  | .nil => true
  | .cons k2 _ rest => ltValue k k2 && keysAbove k rest
/-- Every key of the entries normalizes strictly above nk. -/
def keysAboveN (nk : Value) : Entries → Bool
  | .nil => true
  | .cons k2 _ rest => ltValue nk (normV k2) && keysAboveN nk rest
end

/-- Scan characters from a given depth: some final depth when no comma occurs
at depth 0 and the depth never goes negative, none otherwise.  This is the
analysis device for the splitter: a fragment that scans cleanly is carried
through splitTopAux as an unsplit block. -/
def scanB : List Char → Int → Option Int
  | [], d => some d
  | c :: rest, d =>
    if c = ',' ∧ d = 0 then none
    else if d + deltaC c < 0 then none
    else scanB rest (d + deltaC c)

/-- Concatenation of entry lists. -/
def appendE : Entries → Entries → Entries
  | .nil, fs => fs
  | .cons k v rest, fs => .cons k v (appendE rest fs)

/-- Every key of the entries is strictly below k in the Value order. -/
def keysBelow : Entries → Value → Bool
  | .nil, _ => true
  | .cons k2 _ rest, k => ltValue k2 k && keysBelow rest k

/-- Every key of the accumulator is strictly below the normalization of every
key of the second list: the invariant of the object-parsing fold. -/
def accBelowN : Entries → Entries → Bool
  | .nil, _ => true
  | .cons k _ rest, es => keysAboveN k es && accBelowN rest es

/-- Entries (vint i, v₀), (vint (i+1), v₁), … for a value list: the entry list
the vector constructor produces starting at index i. -/
def enumE : List Value → Nat → Entries
  | [], _ => .nil
  | v :: rest, i => .cons (.vint i) v (enumE rest (i + 1))

/-- The keys of the entries are pairwise strictly sorted in the Value order
(the std::map representation invariant). -/
def sortedE : Entries → Bool
  | .nil => true
  | .cons k _ rest => keysAbove k rest && sortedE rest

/-! The spec's error enumeration, as a predicate to be compared with the
parser.  The spec asserts that parsing fails with a typed error exactly when
the fragment is empty, when a fragment starting with a bracket lacks its
matching closing bracket, or when an object entry lacks the '=' separator —
and for no other reason, the contents of the entries being irrelevant beyond
their recursive parses.  The definitions below write down that enumeration
and nothing else: they carry none of the parser's value construction, numeric
or literal parsing, and they reuse only the segmentation helpers (trimChars,
splitTop, splitFirstEq) that define what "an entry" is.  The equivalence
theorem then states that the parser returns an error exactly as this
enumeration predicts, which is the spec's "exactly when". -/

/-- Which typed error, if any, the spec's enumeration predicts for the entry
list of an array body: the first entry with non-empty trimmed text whose
recursive parse fails (empty segments are skipped, per the trailing-comma
rule). -/
def specFailsItems (sp : List Char → Option Err) : List (List Char) → Option Err
  | [] => none
  | seg :: rest =>
    if (trimChars seg).isEmpty then specFailsItems sp rest
    else
      match sp (trimChars seg) with
      | some e => some e
      | none => specFailsItems sp rest

/-- Which typed error, if any, the spec's enumeration predicts for the entry
list of an object body: an entry with non-empty trimmed text and no '=' is
the missing-separator error; otherwise the first failing recursive parse of a
key or value side, entries with an empty trimmed side being dropped. -/
def specFailsPairs (sp : List Char → Option Err) : List (List Char) → Option Err
  | [] => none
  | seg :: rest =>
    if (trimChars seg).isEmpty then specFailsPairs sp rest
    else
      match splitFirstEq (trimChars seg) with
      | none => some .missingEq
      | some kv =>
        if (trimChars kv.1).isEmpty ∨ (trimChars kv.2).isEmpty then specFailsPairs sp rest
        else
          match sp (trimChars kv.1) with
          | some e => some e
          | none =>
            match sp (trimChars kv.2) with
            | some e => some e
            | none => specFailsPairs sp rest

mutual
/-- The spec's enumeration for a value fragment: an empty fragment is the
empty-data error, a fragment starting with '[' or '{' fails exactly as its
table parse does, and any other fragment never fails.  The fuel argument
mirrors the parser's so the two recursions can be compared at every fuel. -/
def specFailsV : Nat → List Char → Option Err
  | 0, _ => some .emptyData
  | fuel + 1, cs =>
    if cs.isEmpty then some .emptyData
    else if cs.head? = some '[' ∨ cs.head? = some '{' then specFailsT fuel cs
    else none
/-- The spec's enumeration for a table fragment: the malformed-structure
error exactly when the fragment lacks its matching closing bracket (length
below 2 or wrong last character), else the first failure among the entries of
the body; a fragment headed by neither bracket is the unknown-type error
(unreachable through the value dispatch, which sends only bracket-headed
fragments here). -/
def specFailsT : Nat → List Char → Option Err
  | 0, _ => some .emptyData
  | fuel + 1, cs =>
    if cs.isEmpty then some .emptyData
    else if cs.head? = some '[' then
      if cs.length < 2 ∨ ¬cs.getLast? = some ']' then some .malformedArray
      else if cs.length = 2 then none
      else specFailsItems (fun l => specFailsV fuel l) (splitTop ((cs.drop 1).dropLast))
    else if cs.head? = some '{' then
      if cs.length < 2 ∨ ¬cs.getLast? = some '}' then some .malformedTable
      else if cs.length = 2 then none
      else specFailsPairs (fun l => specFailsV fuel l) (splitTop ((cs.drop 1).dropLast))
    else some .unknownType
end

/-! Character classes. -/

theorem digitC_isDigit {d : Nat} (h : d < 10) : (digitC d).isDigit = true := by
  interval_cases d <;> decide

theorem digVal_digitC {d : Nat} (h : d < 10) : digVal (digitC d) = d := by
  interval_cases d <;> decide

theorem isDigit_toNat {c : Char} (h : c.isDigit = true) : 48 ≤ c.toNat ∧ c.toNat ≤ 57 := by
  simp only [Char.isDigit, Bool.and_eq_true, decide_eq_true_eq] at h
  obtain ⟨h1, h2⟩ := h
  constructor
  · exact h1
  · exact h2

theorem toNat_eq_of_eq {c d : Char} (h : c = d) : c.toNat = d.toNat := by rw [h]

/-- Digits are structurally inert for the parser: depth 0, not a separator,
not a sign, a dot, a quote, an equals or whitespace. -/
theorem isDigit_props {c : Char} (h : c.isDigit = true) :
    deltaC c = 0 ∧ c ≠ ',' ∧ c ≠ '.' ∧ c ≠ '-' ∧ c ≠ '+' ∧ c ≠ '=' ∧ c ≠ '"' ∧
      isWT c = false ∧ isCSpace c = false := by
  obtain ⟨h1, h2⟩ := isDigit_toNat h
  have ne : ∀ d : Char, d.toNat < 48 ∨ 57 < d.toNat → c ≠ d := by
    intro d hd he
    have := toNat_eq_of_eq he
    omega
  refine ⟨?_, ne _ (by decide), ne _ (by decide), ne _ (by decide), ne _ (by decide),
    ne _ (by decide), ne _ (by decide), ?_, ?_⟩
  · have hb1 : c ≠ '[' := ne _ (by decide)
    have hb2 : c ≠ '{' := ne _ (by decide)
    have hb3 : c ≠ ']' := ne _ (by decide)
    have hb4 : c ≠ '}' := ne _ (by decide)
    simp [deltaC, hb1, hb2, hb3, hb4]
  · have hs1 : c ≠ ' ' := ne _ (by decide)
    have hs2 : c ≠ '\t' := ne _ (by decide)
    simp [isWT, hs1, hs2]
  · have hs1 : c ≠ ' ' := ne _ (by decide)
    have hs2 : c ≠ '\t' := ne _ (by decide)
    have hs3 : c ≠ '\n' := ne _ (by decide)
    have hs4 : c ≠ '\x0b' := ne _ (by decide)
    have hs5 : c ≠ '\x0c' := ne _ (by decide)
    have hs6 : c ≠ '\r' := ne _ (by decide)
    simp [isCSpace, hs1, hs2, hs3, hs4, hs5, hs6]

/-! Trimming. -/

theorem dropWhile_head_false {p : Char → Bool} :
    ∀ {l : List Char}, (∀ c, l.head? = some c → p c = false) → l.dropWhile p = l := by
  intro l h
  cases l with
  | nil => rfl
  | cons c rest => simp [List.dropWhile_cons, h c rfl]

theorem trimChars_eq_self {cs : List Char} (h1 : ∀ c, cs.head? = some c → isWT c = false)
    (h2 : ∀ c, cs.getLast? = some c → isWT c = false) : trimChars cs = cs := by
  unfold trimChars
  rw [dropWhile_head_false h1]
  rw [dropWhile_head_false (by simpa [List.head?_reverse] using h2)]
  exact List.reverse_reverse cs

theorem trimChars_all {cs : List Char} (h : ∀ c ∈ cs, isWT c = false) : trimChars cs = cs := by
  refine trimChars_eq_self (fun c hc => h c ?_) (fun c hc => h c ?_)
  · exact List.mem_of_mem_head? hc
  · exact List.mem_of_mem_getLast? hc

/-! Decimal digits of numbers. -/

theorem pushVal_nil (acc : Nat) : pushVal acc [] = acc := rfl

theorem pushVal_cons (acc : Nat) (c : Char) (rest : List Char) :
    pushVal acc (c :: rest) = pushVal (10 * acc + digVal c) rest := rfl

theorem pushVal_append (xs ys : List Char) : ∀ acc,
    pushVal acc (xs ++ ys) = pushVal (pushVal acc xs) ys := by
  intro acc
  unfold pushVal
  exact List.foldl_append _ _ _ _

theorem natCharsAux_digits : ∀ fuel n, ∀ c ∈ natCharsAux fuel n, c.isDigit = true := by
  intro fuel
  induction fuel with
  | zero => intro n c hc; simp [natCharsAux] at hc
  | succ f ih =>
    intro n c hc
    by_cases h0 : n = 0
    · simp [natCharsAux, h0] at hc
    · rw [natCharsAux, if_neg h0] at hc
      rcases List.mem_append.mp hc with h | h
      · exact ih _ c h
      · simp at h
        subst h
        exact digitC_isDigit (Nat.mod_lt _ (by norm_num))

theorem pushVal_natCharsAux : ∀ fuel n, n < 10 ^ fuel → ∀ acc,
    pushVal acc (natCharsAux fuel n) = acc * 10 ^ (natCharsAux fuel n).length + n := by
  intro fuel
  induction fuel with
  | zero =>
    intro n hn acc
    interval_cases n
    simp [natCharsAux, pushVal_nil]
  | succ f ih =>
    intro n hn acc
    by_cases h0 : n = 0
    · simp [natCharsAux, h0, pushVal_nil]
    · rw [natCharsAux, if_neg h0]
      have hdiv : n / 10 < 10 ^ f := by
        rw [Nat.div_lt_iff_lt_mul (by norm_num)]
        calc n < 10 ^ (f + 1) := hn
        _ = 10 ^ f * 10 := by ring
      rw [pushVal_append, ih _ hdiv]
      have hmod : n % 10 < 10 := Nat.mod_lt _ (by norm_num)
      simp only [pushVal_cons, pushVal_nil, digVal_digitC hmod, List.length_append,
        List.length_singleton]
      have hdm := Nat.div_add_mod n 10
      set K := 10 ^ (natCharsAux f (n / 10)).length with hK
      have hpow : 10 ^ ((natCharsAux f (n / 10)).length + 1) = K * 10 := by
        rw [hK, pow_succ]
      rw [hpow]
      have hassoc : acc * (K * 10) = 10 * (acc * K) := by ring
      rw [hassoc]
      omega

theorem pushVal_natChars (n : Nat) : pushVal 0 (natChars n) = n := by
  by_cases h0 : n = 0
  · subst h0; decide
  · rw [natChars, if_neg h0]
    have hlt : n < 10 ^ (n + 1) :=
      lt_of_lt_of_le (Nat.lt_two_pow n)
        (le_trans (Nat.pow_le_pow_left (by norm_num) n) (Nat.pow_le_pow_right (by norm_num) (by omega)))
    rw [pushVal_natCharsAux _ _ hlt]
    simp

theorem natChars_ne_nil (n : Nat) : natChars n ≠ [] := by
  by_cases h0 : n = 0
  · simp [natChars, h0]
  · rw [natChars, if_neg h0, natCharsAux, if_neg h0]
    simp

theorem natChars_digits (n : Nat) : ∀ c ∈ natChars n, c.isDigit = true := by
  by_cases h0 : n = 0
  · subst h0; intro c hc; simp [natChars] at hc; subst hc; decide
  · rw [natChars, if_neg h0]
    exact natCharsAux_digits _ n

theorem intChars_mem (n : Int) : ∀ c ∈ intChars n, c.isDigit = true ∨ c = '-' := by
  intro c hc
  unfold intChars at hc
  split at hc
  · rcases List.mem_cons.mp hc with h | h
    · exact Or.inr h
    · exact Or.inl (natChars_digits _ c h)
  · exact Or.inl (natChars_digits _ c hc)

/-! takeWhile / dropWhile on digit runs. -/

theorem takeWhile_all {p : Char → Bool} :
    ∀ {xs : List Char}, (∀ c ∈ xs, p c = true) → xs.takeWhile p = xs := by
  intro xs h
  induction xs with
  | nil => rfl
  | cons c rest ih =>
    rw [List.takeWhile_cons, if_pos (h c (List.mem_cons_self c rest))]
    rw [ih (fun d hd => h d (List.mem_cons_of_mem c hd))]

theorem takeWhile_append_stop {p : Char → Bool} {y : Char} (hy : p y = false) :
    ∀ {xs : List Char}, (∀ c ∈ xs, p c = true) →
    ∀ ys, (xs ++ y :: ys).takeWhile p = xs ∧ (xs ++ y :: ys).dropWhile p = y :: ys := by
  intro xs h
  induction xs with
  | nil => intro ys; simp [List.takeWhile_cons, List.dropWhile_cons, hy]
  | cons c rest ih =>
    intro ys
    have hc := h c (List.mem_cons_self c rest)
    have hrest := ih (fun d hd => h d (List.mem_cons_of_mem c hd)) ys
    simp only [List.cons_append, List.takeWhile_cons, List.dropWhile_cons, hc]
    simp [hrest.1, hrest.2]

/-! Scanning: blocks with no top-level comma and non-negative running depth. -/

theorem scanB_append : ∀ (xs ys : List Char) (d : Int),
    scanB (xs ++ ys) d = (scanB xs d).bind (fun e => scanB ys e) := by
  intro xs
  induction xs with
  | nil => intro ys d; rfl
  | cons c rest ih =>
    intro ys d
    by_cases h1 : c = ',' ∧ d = 0
    · simp [scanB, h1]
    · by_cases h2 : d + deltaC c < 0
      · simp [scanB, h1, h2]
      · simp only [List.cons_append, scanB, if_neg h1, if_neg h2]
        exact ih ys (d + deltaC c)

theorem scanB_cons_inert {c : Char} (h0 : deltaC c = 0) (hc : ¬c = ',') {d : Int}
    (hd : 0 ≤ d) (rest : List Char) : scanB (c :: rest) d = scanB rest d := by
  have h1 : ¬(c = ',' ∧ d = 0) := fun h => hc h.1
  have h2 : ¬(d + deltaC c < 0) := by rw [h0]; omega
  rw [scanB, if_neg h1, if_neg h2, h0, add_zero]

theorem scanB_all_inert {cs : List Char} (h : ∀ c ∈ cs, deltaC c = 0 ∧ ¬c = ',') {d : Int}
    (hd : 0 ≤ d) : scanB cs d = some d := by
  induction cs with
  | nil => rfl
  | cons c rest ih =>
    have hc := h c (List.mem_cons_self c rest)
    rw [scanB_cons_inert hc.1 hc.2 hd]
    exact ih (fun x hx => h x (List.mem_cons_of_mem c hx))

/-! The splitter walks over a cleanly scanning block without splitting it. -/

theorem splitTopAux_block : ∀ (xs : List Char) (d e : Int), scanB xs d = some e →
    ∀ (ys cur : List Char),
    splitTopAux (xs ++ ys) d cur = splitTopAux ys e (xs.reverse ++ cur) := by
  intro xs
  induction xs with
  | nil =>
    intro d e h ys cur
    simp only [scanB] at h
    obtain rfl : d = e := by injection h
    simp
  | cons c rest ih =>
    intro d e h ys cur
    by_cases h1 : c = ',' ∧ d = 0
    · rw [scanB, if_pos h1] at h; exact absurd h (by simp)
    · by_cases h2 : d + deltaC c < 0
      · rw [scanB, if_neg h1, if_pos h2] at h; exact absurd h (by simp)
      · rw [scanB, if_neg h1, if_neg h2] at h
        by_cases hop : c = '[' ∨ c = '{'
        · have hd : deltaC c = 1 := by rcases hop with rfl | rfl <;> rfl
          rw [hd] at h
          simp only [List.cons_append, splitTopAux, if_pos hop, List.append_eq]
          rw [ih _ _ h ys (c :: cur)]
          simp
        · by_cases hcl : c = ']' ∨ c = '}'
          · have hd : deltaC c = -1 := by
              rcases hcl with rfl | rfl <;> rfl
            rw [hd] at h
            simp only [List.cons_append, splitTopAux, if_neg hop, if_pos hcl, List.append_eq]
            rw [show d - 1 = d + -1 by ring, ih _ _ h ys (c :: cur)]
            simp
          · have hd : deltaC c = 0 := by rw [deltaC, if_neg hop, if_neg hcl]
            rw [hd, add_zero] at h
            have h3 : ¬(c = ',' ∧ d = 0) := h1
            simp only [List.cons_append, splitTopAux, if_neg hop, if_neg hcl, if_neg h3,
              List.append_eq]
            rw [ih _ _ h ys (c :: cur)]
            simp

theorem splitTop_block {xs : List Char} (h : scanB xs 0 = some 0) : splitTop xs = [xs] := by
  have := splitTopAux_block xs 0 0 h [] []
  rw [List.append_nil] at this
  rw [splitTop, this]
  simp [splitTopAux]

theorem splitTop_block_comma {xs rest : List Char} (h : scanB xs 0 = some 0) :
    splitTop (xs ++ ',' :: rest) = xs :: splitTop rest := by
  rw [splitTop, splitTopAux_block xs 0 0 h (',' :: rest) []]
  rw [splitTopAux, if_neg (by decide : ¬(',' = '[' ∨ ',' = '{')),
    if_neg (by decide : ¬(',' = ']' ∨ ',' = '}')), if_pos ⟨rfl, rfl⟩]
  simp [splitTop]

theorem splitTopAux_mem_length : ∀ (cs : List Char) (d : Int) (cur seg : List Char),
    seg ∈ splitTopAux cs d cur → seg.length ≤ cs.length + cur.length := by
  intro cs
  induction cs with
  | nil =>
    intro d cur seg h
    simp only [splitTopAux, List.mem_singleton] at h
    simp [h]
  | cons c rest ih =>
    intro d cur seg h
    rw [splitTopAux] at h
    split at h
    · have := ih _ _ _ h
      simp only [List.length_cons] at this ⊢
      omega
    · split at h
      · have := ih _ _ _ h
        simp only [List.length_cons] at this ⊢
        omega
      · split at h
        · rcases List.mem_cons.mp h with rfl | h2
          · simp only [List.length_reverse, List.length_cons]
            omega
          · have := ih _ _ _ h2
            simp only [List.length_cons, List.length_nil] at this ⊢
            omega
        · have := ih _ _ _ h
          simp only [List.length_cons] at this ⊢
          omega

theorem splitTop_mem_length {cs seg : List Char} (h : seg ∈ splitTop cs) :
    seg.length ≤ cs.length := by
  have := splitTopAux_mem_length cs 0 [] seg h
  simpa using this

/-! The first '=' of a segment. -/

theorem splitFirstEq_append {a : List Char} (b : List Char) (h : '=' ∉ a) :
    splitFirstEq (a ++ '=' :: b) = some (a, b) := by
  induction a with
  | nil => simp [splitFirstEq]
  | cons c rest ih =>
    have hc : ¬c = '=' := fun hc => h (hc ▸ List.mem_cons_self c rest)
    rw [List.cons_append, splitFirstEq, if_neg hc,
      ih (fun hm => h (List.mem_cons_of_mem c hm))]
    rfl

theorem splitFirstEq_none {cs : List Char} (h : '=' ∉ cs) : splitFirstEq cs = none := by
  induction cs with
  | nil => rfl
  | cons c rest ih =>
    have hc : ¬c = '=' := fun hc => h (hc ▸ List.mem_cons_self c rest)
    rw [splitFirstEq, if_neg hc, ih (fun hm => h (List.mem_cons_of_mem c hm))]
    rfl

theorem head_false_of_cons {p : Char → Bool} {c : Char} (hc : p c = false) (l : List Char) :
    ∀ x, (c :: l).head? = some x → p x = false := by
  intro x hx
  rw [List.head?_cons, Option.some.injEq] at hx
  rw [← hx]
  exact hc

theorem stoiM_intChars {n : Int} (h1 : INT_MIN ≤ n) (h2 : n ≤ INT_MAX) :
    stoiM (intChars n) = some n := by
  have hmin : INT_MIN = -2147483648 := by norm_num [INT_MIN]
  have hmax : INT_MAX = 2147483647 := by norm_num [INT_MAX]
  obtain ⟨c, rest, hcr⟩ := List.exists_cons_of_ne_nil (natChars_ne_nil n.natAbs)
  have hcd : c.isDigit = true := natChars_digits _ c (by rw [hcr]; exact List.mem_cons_self _ _)
  have hp := isDigit_props hcd
  have hall : ∀ x ∈ natChars n.natAbs, Char.isDigit x = true := natChars_digits _
  have htw : (natChars n.natAbs).takeWhile Char.isDigit = natChars n.natAbs := takeWhile_all hall
  have hne : (natChars n.natAbs).isEmpty = false := by rw [hcr]; rfl
  have hpv : pushVal 0 (natChars n.natAbs) = n.natAbs := pushVal_natChars _
  by_cases hn : n < 0
  · have hdw : List.dropWhile isCSpace ('-' :: natChars n.natAbs) = '-' :: natChars n.natAbs :=
      dropWhile_head_false (head_false_of_cons rfl _)
    rw [intChars, if_pos hn]
    unfold stoiM
    rw [hdw]
    simp only [signSplit, if_pos rfl, htw, hne, Bool.false_eq_true, if_false, if_true, hpv]
    rw [if_neg (by omega)]
    congr 1
    omega
  · have hdw : List.dropWhile isCSpace (natChars n.natAbs) = natChars n.natAbs :=
      dropWhile_head_false (by
        rw [hcr]
        exact head_false_of_cons hp.2.2.2.2.2.2.2.2 _)
    have hss : signSplit (natChars n.natAbs) = (false, natChars n.natAbs) := by
      rw [hcr]
      simp only [signSplit]
      rw [if_neg hp.2.2.2.1, if_neg hp.2.2.2.2.1]
    rw [intChars, if_neg hn]
    unfold stoiM
    rw [hdw, hss]
    simp only [htw, hne, Bool.false_eq_true, if_false, hpv]
    rw [if_neg (by omega)]
    congr 1
    omega

/-! Rounding to the nearest integer. -/

theorem rhe_intCast (n : Int) : rhe (n : ℚ) = n := by
  unfold rhe
  rw [Int.floor_intCast]
  norm_num

theorem rhe_abs_le (x : ℚ) : |(rhe x : ℚ) - x| ≤ 1 / 2 := by
  simp only [rhe]
  have h1 := Int.floor_le x
  have h2 := Int.lt_floor_add_one x
  push_cast at h2
  split
  · rename_i h
    rw [abs_le]
    constructor <;> linarith
  · split
    · rename_i h h'
      push_cast
      rw [abs_le]
      constructor <;> linarith
    · split
      · rename_i h h' _
        have : x - (⌊x⌋ : ℚ) = 1 / 2 := le_antisymm (not_lt.mp h') (not_lt.mp h)
        rw [abs_le]
        constructor <;> linarith
      · rename_i h h' _
        have : x - (⌊x⌋ : ℚ) = 1 / 2 := le_antisymm (not_lt.mp h') (not_lt.mp h)
        push_cast
        rw [abs_le]
        constructor <;> linarith

/-! stof on serialized floats. -/

theorem stofM_format1 {q : ℚ} (h : |q| ≤ 2 ^ 127) :
    stofM (format1Chars q) = some ((rhe (10 * q) : ℚ) / 10) := by
  have hbound : |(rhe (10 * q) : ℚ)| ≤ 10 * 2 ^ 127 + 1 / 2 := by
    have ha := rhe_abs_le (10 * q)
    have : |(10 : ℚ) * q| = 10 * |q| := by
      rw [abs_mul]
      norm_num
    calc |(rhe (10 * q) : ℚ)| = |((rhe (10 * q) : ℚ) - 10 * q) + 10 * q| := by ring_nf
    _ ≤ |(rhe (10 * q) : ℚ) - 10 * q| + |10 * q| := abs_add _ _
    _ ≤ 1 / 2 + 10 * |q| := by rw [this] at *; linarith
    _ ≤ 10 * 2 ^ 127 + 1 / 2 := by linarith
  set n := rhe (10 * q) with hn
  set a := n.natAbs with ha
  have hdig : (digitC (a % 10)).isDigit = true := digitC_isDigit (Nat.mod_lt _ (by norm_num))
  have hip : ∀ c ∈ natChars (a / 10), Char.isDigit c = true := natChars_digits _
  obtain ⟨c, rest, hcr⟩ := List.exists_cons_of_ne_nil (natChars_ne_nil (a / 10))
  have hcd : c.isDigit = true := hip c (by rw [hcr]; exact List.mem_cons_self _ _)
  have hcp := isDigit_props hcd
  have hstop := takeWhile_append_stop (p := Char.isDigit) (y := '.') (by decide) hip
    [digitC (a % 10)]
  have hne : (natChars (a / 10)).isEmpty = false := by rw [hcr]; rfl
  have hmant : ((pushVal 0 (natChars (a / 10)) : Nat) : ℚ) +
      ((pushVal 0 [digitC (a % 10)] : Nat) : ℚ) / 10 ^ ([digitC (a % 10)].length) = (a : ℚ) / 10 := by
    rw [pushVal_natChars]
    have hone : pushVal 0 [digitC (a % 10)] = a % 10 := by
      rw [pushVal_cons, pushVal_nil, digVal_digitC (Nat.mod_lt _ (by norm_num))]
      omega
    rw [hone]
    have hcast : ((a / 10 : Nat) : ℚ) * 10 + ((a % 10 : Nat) : ℚ) = (a : ℚ) := by
      have h3 : a / 10 * 10 + a % 10 = a := by omega
      exact_mod_cast h3
    simp only [List.length_singleton, pow_one]
    field_simp
    linarith
  have hrange : ¬FLOAT_MAX < |(n : ℚ) / 10| := by
    rw [not_lt, abs_div]
    have h10 : |(10 : ℚ)| = 10 := by norm_num
    rw [h10, div_le_iff₀ (by norm_num)]
    have : FLOAT_MAX * 10 = (2 ^ 24 - 1) * 2 ^ 104 * 10 := by rw [FLOAT_MAX]
    rw [this]
    calc |(n : ℚ)| ≤ 10 * 2 ^ 127 + 1 / 2 := hbound
    _ ≤ (2 ^ 24 - 1) * 2 ^ 104 * 10 := by norm_num
  have htw1 : List.takeWhile Char.isDigit [digitC (a % 10)] = [digitC (a % 10)] :=
    takeWhile_all (by intro x hx; rw [List.mem_singleton] at hx; subst hx; exact hdig)
  have hdw1 : List.dropWhile Char.isDigit [digitC (a % 10)] = [] := by
    rw [List.dropWhile_cons, hdig]
    rfl
  have hds : dotSplit ('.' :: [digitC (a % 10)]) = ([digitC (a % 10)], []) := by
    simp only [dotSplit, htw1, hdw1]
    rw [if_pos trivial]
  by_cases hneg : n < 0
  · have hform : format1Chars q = '-' :: (natChars (a / 10) ++ '.' :: [digitC (a % 10)]) := by
      rw [format1Chars, ← hn, if_pos hneg, ← ha]
      simp
    have hdw : List.dropWhile isCSpace ('-' :: (natChars (a / 10) ++ '.' :: [digitC (a % 10)])) =
        '-' :: (natChars (a / 10) ++ '.' :: [digitC (a % 10)]) :=
      dropWhile_head_false (head_false_of_cons rfl _)
    have hss : signSplit ('-' :: (natChars (a / 10) ++ '.' :: [digitC (a % 10)])) =
        (true, natChars (a / 10) ++ '.' :: [digitC (a % 10)]) := by
      simp [signSplit]
    rw [hform]
    unfold stofM
    rw [hdw, hss]
    simp only [hstop.1, hstop.2, hne, Bool.false_eq_true, false_and, if_false, hds]
    simp only [expVal]
    rw [hmant, if_pos (trivial : True)]
    have hval : (-1 : ℚ) * ((a : ℚ) / 10) * 10 ^ (0 : Int) = (n : ℚ) / 10 := by
      have hcast2 : ((a : ℚ)) = -(n : ℚ) := by
        rw [ha]
        push_cast [Int.cast_natAbs]
        rw [abs_of_neg (by exact_mod_cast hneg : (n : ℚ) < 0)]
      rw [hcast2, zpow_zero]
      ring
    rw [hval, if_neg hrange]
  · have hform : format1Chars q = natChars (a / 10) ++ '.' :: [digitC (a % 10)] := by
      rw [format1Chars, ← hn, if_neg hneg, ← ha]
      simp
    have hdw : List.dropWhile isCSpace (natChars (a / 10) ++ '.' :: [digitC (a % 10)]) =
        natChars (a / 10) ++ '.' :: [digitC (a % 10)] :=
      dropWhile_head_false (by
        rw [hcr]
        exact head_false_of_cons hcp.2.2.2.2.2.2.2.2 _)
    have hss : signSplit (natChars (a / 10) ++ '.' :: [digitC (a % 10)]) =
        (false, natChars (a / 10) ++ '.' :: [digitC (a % 10)]) := by
      rw [hcr, List.cons_append]
      simp only [signSplit]
      rw [if_neg hcp.2.2.2.1, if_neg hcp.2.2.2.2.1, ← List.cons_append, ← hcr]
    rw [hform]
    unfold stofM
    rw [hdw, hss]
    simp only [hstop.1, hstop.2, hne, Bool.false_eq_true, false_and, if_false, hds]
    simp only [expVal]
    rw [hmant]
    have hval : (1 : ℚ) * ((a : ℚ) / 10) * 10 ^ (0 : Int) = (n : ℚ) / 10 := by
      have hcast2 : ((a : ℚ)) = (n : ℚ) := by
        rw [ha]
        push_cast [Int.cast_natAbs]
        rw [abs_of_nonneg (by exact_mod_cast not_lt.mp hneg : (0 : ℚ) ≤ (n : ℚ))]
      rw [hcast2, zpow_zero]
      ring
    rw [hval, if_neg hrange]

/-! Fragments that do not look numeric at the head fail both number parsers. -/

theorem stoiM_not_num {c : Char} {rest : List Char} (hsp : isCSpace c = false)
    (h1 : ¬c = '-') (h2 : ¬c = '+') (h3 : c.isDigit = false) : stoiM (c :: rest) = none := by
  unfold stoiM
  rw [dropWhile_head_false (head_false_of_cons hsp _)]
  simp only [signSplit, if_neg h1, if_neg h2]
  rw [List.takeWhile_cons, h3]
  rfl

theorem stofM_not_num {c : Char} {rest : List Char} (hsp : isCSpace c = false)
    (h1 : ¬c = '-') (h2 : ¬c = '+') (h3 : c.isDigit = false) (h4 : ¬c = '.') :
    stofM (c :: rest) = none := by
  unfold stofM
  rw [dropWhile_head_false (head_false_of_cons hsp _)]
  simp only [signSplit, if_neg h1, if_neg h2]
  rw [List.takeWhile_cons, h3]
  rw [dropWhile_head_false (head_false_of_cons h3 _)]
  simp only [dotSplit, if_neg h4]
  rfl

theorem numM_not_num {c : Char} {rest : List Char} (hsp : isCSpace c = false)
    (h1 : ¬c = '-') (h2 : ¬c = '+') (h3 : c.isDigit = false) (h4 : ¬c = '.') :
    numM (c :: rest) = none := by
  unfold numM
  split
  · rw [stofM_not_num hsp h1 h2 h3 h4]; rfl
  · rw [stoiM_not_num hsp h1 h2 h3]; rfl

/-! Structure of serialized output. -/

theorem format1Chars_mem (q : ℚ) :
    ∀ c ∈ format1Chars q, c.isDigit = true ∨ c = '-' ∨ c = '.' := by
  intro c hc
  simp only [format1Chars] at hc
  rcases List.mem_append.mp hc with h | h
  · rcases List.mem_append.mp h with h2 | h2
    · split at h2
      · rw [List.mem_singleton] at h2
        subst h2
        right; left; rfl
      · simp at h2
    · exact Or.inl (natChars_digits _ c h2)
  · rcases List.mem_cons.mp h with rfl | h3
    · right; right; rfl
    · rw [List.mem_singleton] at h3
      subst h3
      exact Or.inl (digitC_isDigit (Nat.mod_lt _ (by norm_num)))

theorem safeChar_props {c : Char} (h : safeChar c = true) : deltaC c = 0 ∧ ¬c = ',' := by
  simp only [safeChar, Bool.not_eq_eq_eq_not, Bool.not_true, Bool.or_eq_false_iff,
    decide_eq_false_iff_not] at h
  obtain ⟨⟨⟨⟨⟨h1, h2⟩, h3⟩, h4⟩, h5⟩, h6⟩ := h
  exact ⟨by simp [deltaC, h3, h4, h5, h6], h2⟩

theorem wfV_of_mapKeyOK {k : Value} (h : mapKeyOK k = true) : wfV k = true := by
  cases k with
  | vint n => exact h
  | vfloat q => exact h
  | vbool b => rfl
  | vstr s =>
    rw [mapKeyOK, Bool.and_eq_true] at h
    exact h.1
  | vtable a t => exact absurd h (by rw [mapKeyOK]; simp)

theorem serializeT_shape (es : Entries) (ia : Bool) :
    serializeT (.mk es ia) =
      ((if ia then '[' else '{') :: (if ia then serializeArrE es else serializeObjE es)) ++
        [if ia then ']' else '}'] := by
  cases ia <;> simp [serializeT]

theorem serializeT_head (t : Table) :
    (serializeT t).head? = some '[' ∨ (serializeT t).head? = some '{' := by
  obtain ⟨es, ia⟩ := t
  rw [serializeT_shape]
  cases ia
  · right; rfl
  · left; rfl

theorem serializeV_edges (v : Value) :
    (∀ c, (serializeV v).head? = some c → isWT c = false) ∧
    (∀ c, (serializeV v).getLast? = some c → isWT c = false) := by
  cases v with
  | vint n =>
    have hmem : ∀ c ∈ serializeV (.vint n), isWT c = false := by
      intro c hc
      rcases intChars_mem n c hc with h | h
      · exact (isDigit_props h).2.2.2.2.2.2.2.1
      · subst h; rfl
    exact ⟨fun c hc => hmem c (List.mem_of_mem_head? hc),
      fun c hc => hmem c (List.mem_of_mem_getLast? hc)⟩
  | vfloat q =>
    have hmem : ∀ c ∈ serializeV (.vfloat q), isWT c = false := by
      intro c hc
      rcases format1Chars_mem q c hc with h | h | h
      · exact (isDigit_props h).2.2.2.2.2.2.2.1
      · subst h; rfl
      · subst h; rfl
    exact ⟨fun c hc => hmem c (List.mem_of_mem_head? hc),
      fun c hc => hmem c (List.mem_of_mem_getLast? hc)⟩
  | vbool b =>
    have hmem : ∀ c ∈ serializeV (.vbool b), isWT c = false := by
      cases b <;> decide
    exact ⟨fun c hc => hmem c (List.mem_of_mem_head? hc),
      fun c hc => hmem c (List.mem_of_mem_getLast? hc)⟩
  | vstr s =>
    constructor
    · intro c hc
      rw [serializeV, List.cons_append, List.head?_cons, Option.some.injEq] at hc
      rw [← hc]
      rfl
    · intro c hc
      rw [serializeV, List.getLast?_concat, Option.some.injEq] at hc
      rw [← hc]
      rfl
  | vtable a t =>
    obtain ⟨es, ia⟩ := t
    rw [serializeV, serializeT_shape]
    constructor
    · intro c hc
      rw [List.cons_append, List.head?_cons, Option.some.injEq] at hc
      rw [← hc]
      cases ia <;> rfl
    · intro c hc
      rw [List.getLast?_concat, Option.some.injEq] at hc
      rw [← hc]
      cases ia <;> rfl

theorem trim_serializeV (v : Value) : trimChars (serializeV v) = serializeV v :=
  trimChars_eq_self (serializeV_edges v).1 (serializeV_edges v).2

theorem serializeV_ne_nil (v : Value) : serializeV v ≠ [] := by
  cases v with
  | vint n =>
    rw [serializeV, intChars]
    split
    · simp
    · exact natChars_ne_nil _
  | vfloat q =>
    rw [serializeV, format1Chars]
    simp
  | vbool b => cases b <;> decide
  | vstr s => rw [serializeV]; simp
  | vtable a t =>
    obtain ⟨es, ia⟩ := t
    rw [serializeV, serializeT_shape]
    simp

/-! Serialized values scan cleanly at any non-negative depth: brackets stay
balanced and no comma ever sits at depth 0. -/

mutual
theorem scanB_serializeV (v : Value) (hwf : wfV v = true) :
    ∀ d : Int, 0 ≤ d → scanB (serializeV v) d = some d := by
  intro d hd
  cases v with
  | vint n =>
    refine scanB_all_inert ?_ hd
    intro c hc
    rcases intChars_mem n c hc with h | h
    · exact ⟨(isDigit_props h).1, (isDigit_props h).2.1⟩
    · subst h; exact ⟨rfl, by decide⟩
  | vfloat q =>
    refine scanB_all_inert ?_ hd
    intro c hc
    rcases format1Chars_mem q c hc with h | h | h
    · exact ⟨(isDigit_props h).1, (isDigit_props h).2.1⟩
    · subst h; exact ⟨rfl, by decide⟩
    · subst h; exact ⟨rfl, by decide⟩
  | vbool b =>
    refine scanB_all_inert ?_ hd
    cases b <;> decide
  | vstr s =>
    refine scanB_all_inert ?_ hd
    intro c hc
    rw [serializeV] at hc
    rcases List.mem_append.mp hc with h2 | h2
    · rcases List.mem_cons.mp h2 with rfl | h3
      · exact ⟨rfl, by decide⟩
      · have hs : safeChar c = true := by
          rw [wfV, safeStr] at hwf
          exact List.all_eq_true.mp hwf c h3
        exact safeChar_props hs
    · rw [List.mem_singleton] at h2
      subst h2
      exact ⟨rfl, by decide⟩
  | vtable a t => exact scanB_serializeT t hwf d hd
theorem scanB_serializeT (t : Table) (hwf : wfT t = true) :
    ∀ d : Int, 0 ≤ d → scanB (serializeT t) d = some d := by
  intro d hd
  obtain ⟨es, ia⟩ := t
  have hinner : scanB (if ia then serializeArrE es else serializeObjE es) (d + 1) = some (d + 1) := by
    cases ia
    · rw [if_neg (by simp)]
      rw [wfT] at hwf
      exact scanB_serializeObjE es hwf (d + 1) (by omega)
    · rw [if_pos rfl]
      rw [wfT] at hwf
      exact scanB_serializeArrE es 0 hwf (d + 1) (by omega)
  rw [serializeT_shape, List.cons_append, scanB]
  rw [if_neg (by cases ia <;> simp), if_neg (by cases ia <;> simp [deltaC] <;> omega)]
  have hdelta : deltaC (if ia then '[' else '{') = 1 := by cases ia <;> rfl
  rw [hdelta, scanB_append, hinner, Option.some_bind]
  have hdelta2 : deltaC (if ia then ']' else '}') = -1 := by cases ia <;> rfl
  rw [scanB, if_neg (by cases ia <;> simp), hdelta2, if_neg (by omega)]
  rw [show d + 1 + -1 = d by ring]
  rfl
theorem scanB_serializeArrE (es : Entries) : ∀ i : Nat, wfArrE es i = true →
    ∀ d : Int, 1 ≤ d → scanB (serializeArrE es) d = some d := by
  intro i hwf d hd
  cases es with
  | nil => rfl
  | cons k v rest =>
    rw [wfArrE] at hwf
    simp only [Bool.and_eq_true] at hwf
    cases rest with
    | nil => exact scanB_serializeV v hwf.1.2 d (by omega)
    | cons k2 v2 rest2 =>
      rw [serializeArrE, scanB_append, scanB_serializeV v hwf.1.2 d (by omega),
        Option.some_bind]
      rw [scanB, if_neg (by omega), if_neg (by simp [deltaC]; omega)]
      rw [show d + deltaC ',' = d by simp [deltaC]]
      exact scanB_serializeArrE (.cons k2 v2 rest2) (i + 1) hwf.2 d hd
theorem scanB_serializeObjE (es : Entries) (hwf : wfMapE es = true) :
    ∀ d : Int, 1 ≤ d → scanB (serializeObjE es) d = some d := by
  intro d hd
  cases es with
  | nil => rfl
  | cons k v rest =>
    rw [wfMapE] at hwf
    simp only [Bool.and_eq_true] at hwf
    have hk := scanB_serializeV k (wfV_of_mapKeyOK hwf.1.1.1.1) d (by omega)
    have hv := scanB_serializeV v hwf.1.1.1.2 d (by omega)
    have heq : scanB ('=' :: serializeV v) d = some d := by
      rw [scanB_cons_inert (c := '=') rfl (by decide) (by omega)]
      exact hv
    have hAB : scanB (serializeV k ++ '=' :: serializeV v) d = some d := by
      rw [scanB_append, hk, Option.some_bind]
      exact heq
    cases rest with
    | nil => exact hAB
    | cons k2 v2 rest2 =>
      rw [serializeObjE, scanB_append, hAB, Option.some_bind]
      rw [scanB, if_neg (by omega), if_neg (by simp [deltaC]; omega)]
      rw [show d + deltaC ',' = d by simp [deltaC]]
      exact scanB_serializeObjE (.cons k2 v2 rest2) hwf.2 d hd
end

/-! The Value order. -/

theorem strLt_asymm : ∀ a b : List Char, strLt a b = true → strLt b a = false := by
  intro a
  induction a with
  | nil =>
    intro b h
    cases b with
    | nil => exact absurd h (by rw [strLt]; simp)
    | cons d ds => rfl
  | cons c cs ih =>
    intro b h
    cases b with
    | nil => exact absurd h (by rw [strLt]; simp)
    | cons d ds =>
      rw [strLt] at h ⊢
      by_cases h1 : chLt c d = true
      · have h2 : chLt d c = false := by
          rw [chLt, decide_eq_true_eq] at h1
          rw [chLt, decide_eq_false_iff_not]
          omega
        rw [h2, if_neg (by simp), if_pos h1]
      · rw [if_neg h1] at h
        by_cases h2 : chLt d c = true
        · rw [if_pos h2] at h
          exact absurd h (by simp)
        · rw [if_neg h2] at h
          rw [if_neg h2, if_neg h1]
          exact ih ds h

theorem strLt_trans : ∀ a b c : List Char,
    strLt a b = true → strLt b c = true → strLt a c = true := by
  intro a
  induction a with
  | nil =>
    intro b c hab hbc
    cases b with
    | nil => exact absurd hab (by rw [strLt]; simp)
    | cons d ds =>
      cases c with
      | nil => exact absurd hbc (by rw [strLt]; simp)
      | cons e es => rfl
  | cons x xs ih =>
    intro b c hab hbc
    cases b with
    | nil => exact absurd hab (by rw [strLt]; simp)
    | cons d ds =>
      cases c with
      | nil => exact absurd hbc (by rw [strLt]; simp)
      | cons e es =>
        rw [strLt] at hab hbc ⊢
        simp only [chLt, decide_eq_true_eq] at hab hbc ⊢
        by_cases h1 : x.toNat < d.toNat
        · by_cases h2 : d.toNat < e.toNat
          · rw [if_pos (by omega)]
          · rw [if_neg h2] at hbc
            by_cases h3 : e.toNat < d.toNat
            · rw [if_pos h3] at hbc
              exact absurd hbc (by simp)
            · rw [if_pos (by omega : x.toNat < e.toNat)]
        · rw [if_neg h1] at hab
          by_cases h4 : d.toNat < x.toNat
          · rw [if_pos h4] at hab
            exact absurd hab (by simp)
          · rw [if_neg h4] at hab
            by_cases h2 : d.toNat < e.toNat
            · rw [if_pos (by omega : x.toNat < e.toNat)]
            · rw [if_neg h2] at hbc
              by_cases h3 : e.toNat < d.toNat
              · rw [if_pos h3] at hbc
                exact absurd hbc (by simp)
              · rw [if_neg h3] at hbc
                rw [if_neg (by omega), if_neg (by omega)]
                exact ih ds es hab hbc

theorem ltValue_asymm : ∀ a b : Value, ltValue a b = true → ltValue b a = false := by
  intro a b
  cases a <;> cases b <;> simp [ltValue, vidx] <;>
    first
      | omega
      | (intro h; exact le_of_lt h)
      | (intro h; exact strLt_asymm _ _ h)
      | (rename_i x y; cases x <;> cases y <;> simp_all)

theorem ltValue_trans : ∀ a b c : Value,
    ltValue a b = true → ltValue b c = true → ltValue a c = true := by
  intro a b c
  cases a <;> cases b <;> cases c <;> simp [ltValue, vidx] <;>
    first
      | omega
      | (intro h1 h2; exact lt_trans h1 h2)
      | (intro h1 h2; exact strLt_trans _ _ _ h1 h2)
      | (rename_i x y z; cases x <;> cases y <;> cases z <;> simp_all)

theorem ltValue_lt_vint {k : Value} {i : Int} (h : ltValue k (.vint i) = true) :
    ∃ a : Int, k = .vint a ∧ a < i := by
  cases k <;> simp [ltValue, vidx] at h ⊢
  exact h

/-! Entry-list operations. -/

theorem appendE_nil_right : ∀ es : Entries, appendE es .nil = es := by
  intro es
  cases es with
  | nil => rfl
  | cons k v rest => rw [appendE, appendE_nil_right rest]

theorem appendE_assoc : ∀ a b c : Entries, appendE (appendE a b) c = appendE a (appendE b c) := by
  intro a b c
  cases a with
  | nil => rfl
  | cons k v rest => rw [appendE, appendE, appendE, appendE_assoc rest b c]

theorem keysBelow_append : ∀ (m1 m2 : Entries) (k : Value),
    keysBelow (appendE m1 m2) k = (keysBelow m1 k && keysBelow m2 k) := by
  intro m1 m2 k
  cases m1 with
  | nil => rfl
  | cons k2 v2 rest =>
    rw [appendE, keysBelow, keysBelow, keysBelow_append rest m2 k, Bool.and_assoc]

theorem keysBelow_vint_mono : ∀ (m : Entries) {i j : Int},
    keysBelow m (.vint i) = true → i ≤ j → keysBelow m (.vint j) = true := by
  intro m
  cases m with
  | nil => intro i j _ _; rfl
  | cons k2 v2 rest =>
    intro i j h hij
    rw [keysBelow, Bool.and_eq_true] at h
    obtain ⟨a, rfl, ha⟩ := ltValue_lt_vint h.1
    rw [keysBelow, Bool.and_eq_true]
    refine ⟨?_, keysBelow_vint_mono rest h.2 hij⟩
    simp [ltValue, vidx]
    omega

theorem mapInsert_append {k : Value} (v : Value) : ∀ (m : Entries),
    keysBelow m k = true → mapInsert k v m = appendE m (.cons k v .nil) := by
  intro m
  cases m with
  | nil => intro _; rfl
  | cons k2 v2 rest =>
    intro h
    rw [keysBelow, Bool.and_eq_true] at h
    have h1 : ltValue k k2 = false := ltValue_asymm _ _ h.1
    rw [mapInsert, if_neg (by rw [h1]; simp), if_pos h.1, mapInsert_append v rest h.2, appendE]

theorem ofVectorAux_eq : ∀ (vs : List Value) (i : Nat) (m : Entries),
    keysBelow m (.vint i) = true → ofVectorAux vs i m = appendE m (enumE vs i) := by
  intro vs
  induction vs with
  | nil =>
    intro i m _
    rw [ofVectorAux, enumE, appendE_nil_right]
  | cons v rest ih =>
    intro i m h
    rw [ofVectorAux, mapInsert_append _ _ h]
    have hstep : keysBelow (appendE m (.cons (.vint i) v .nil)) (.vint (i + 1)) = true := by
      rw [keysBelow_append, Bool.and_eq_true]
      refine ⟨keysBelow_vint_mono _ h (by omega), ?_⟩
      rw [keysBelow, keysBelow, Bool.and_eq_true]
      refine ⟨?_, rfl⟩
      simp [ltValue, vidx]
    rw [ih (i + 1) _ hstep, appendE_assoc]
    rfl

theorem ofVector_entries (vs : List Value) : (Table.ofVector vs).entries = enumE vs 0 := by
  rw [Table.ofVector, Table.entries, ofVectorAux_eq vs 0 .nil rfl, appendE]

theorem keysConsecutive_enumE : ∀ (vs : List Value) (i : Nat),
    keysConsecutive (enumE vs i) i = true := by
  intro vs
  induction vs with
  | nil => intro i; rfl
  | cons v rest ih =>
    intro i
    rw [enumE, keysConsecutive, Bool.and_eq_true]
    exact ⟨beq_iff_eq.mpr rfl, ih (i + 1)⟩

theorem valuesE_enumE : ∀ (vs : List Value) (i : Nat), valuesE (enumE vs i) = vs := by
  intro vs
  induction vs with
  | nil => intro i; rfl
  | cons v rest ih =>
    intro i
    rw [enumE, valuesE, ih]

/-! Normalization facts. -/

theorem rhe_tenth (q : ℚ) : rhe (10 * ((rhe (10 * q) : ℚ) / 10)) = rhe (10 * q) := by
  rw [show (10 : ℚ) * ((rhe (10 * q) : ℚ) / 10) = ((rhe (10 * q) : ℚ)) by ring]
  exact rhe_intCast _

theorem format1_normV (q : ℚ) :
    format1Chars ((rhe (10 * q) : ℚ) / 10) = format1Chars q := by
  rw [format1Chars, format1Chars, rhe_tenth]

mutual
theorem obsEqV_normV (v : Value) : obsEqV (normV v) v = true := by
  cases v with
  | vint n => simp [normV, obsEqV]
  | vfloat q =>
    rw [normV, obsEqV, format1_normV]
    exact beq_iff_eq.mpr rfl
  | vbool b => simp [normV, obsEqV]
  | vstr s => simp [normV, obsEqV]
  | vtable a t =>
    rw [normV, obsEqV]
    exact obsEqT_normT t
theorem obsEqT_normT (t : Table) : obsEqT (normT t) t = true := by
  obtain ⟨es, ia⟩ := t
  rw [normT, obsEqT, Bool.and_eq_true]
  exact ⟨beq_iff_eq.mpr rfl, obsEqE_normE es⟩
theorem obsEqE_normE (es : Entries) : obsEqE (normE es) es = true := by
  cases es with
  | nil => rfl
  | cons k v rest =>
    rw [normE, obsEqE, Bool.and_eq_true, Bool.and_eq_true]
    exact ⟨⟨obsEqV_normV k, obsEqV_normV v⟩, obsEqE_normE rest⟩
end

theorem enumE_normE : ∀ (es : Entries) (i : Nat), wfArrE es i = true →
    enumE (valuesE (normE es)) i = normE es := by
  intro es
  cases es with
  | nil => intro i _; rfl
  | cons k v rest =>
    intro i h
    rw [wfArrE, Bool.and_eq_true, Bool.and_eq_true] at h
    obtain ⟨⟨hk, _⟩, hrest⟩ := h
    have hk2 : k = .vint i := beq_iff_eq.mp hk
    subst hk2
    rw [normE, valuesE, enumE, enumE_normE rest (i + 1) hrest]
    rfl

theorem splitFirstEq_eq : ∀ {cs a b : List Char}, splitFirstEq cs = some (a, b) →
    cs = a ++ '=' :: b ∧ '=' ∉ a := by
  intro cs
  induction cs with
  | nil => intro a b h; exact absurd h (by simp [splitFirstEq])
  | cons c rest ih =>
    intro a b h
    rw [splitFirstEq] at h
    by_cases hc : c = '='
    · rw [if_pos hc] at h
      simp only [Option.some.injEq, Prod.mk.injEq] at h
      obtain ⟨rfl, rfl⟩ := h
      simp [hc]
    · rw [if_neg hc] at h
      match hsp : splitFirstEq rest with
      | none => rw [hsp] at h; exact absurd h (by simp)
      | some p =>
        rw [hsp] at h
        simp only [Option.map_some', Option.some.injEq, Prod.mk.injEq] at h
        obtain ⟨rfl, rfl⟩ := h
        obtain ⟨h1, h2⟩ := ih hsp
        refine ⟨by rw [List.cons_append, ← h1], ?_⟩
        intro hm
        rcases List.mem_cons.mp hm with he | he
        · exact hc he.symm
        · exact h2 he

/-! The parser's value does not depend on the fuel, as long as the fuel
exceeds the input length. -/

theorem length_dropWhile_le (p : Char → Bool) : ∀ l : List Char,
    (l.dropWhile p).length ≤ l.length := by
  intro l
  induction l with
  | nil => simp [List.dropWhile]
  | cons c rest ih =>
    rw [List.dropWhile_cons]
    split
    · exact le_trans ih (by simp)
    · simp

theorem trimChars_length_le (cs : List Char) : (trimChars cs).length ≤ cs.length := by
  rw [trimChars, List.length_reverse]
  calc ((cs.dropWhile isWT).reverse.dropWhile isWT).length
      ≤ (cs.dropWhile isWT).reverse.length := length_dropWhile_le _ _
  _ = (cs.dropWhile isWT).length := List.length_reverse _
  _ ≤ cs.length := length_dropWhile_le _ _

theorem content_length {cs : List Char} : ((cs.drop 1).dropLast).length = cs.length - 1 - 1 := by
  rw [List.length_dropLast, List.length_drop]

theorem parseItems_congr {p q : List Char → Except Err Value} {n : Nat}
    (hpq : ∀ l : List Char, l.length ≤ n → p l = q l) :
    ∀ segs : List (List Char), (∀ seg ∈ segs, seg.length ≤ n) →
    parseItems p segs = parseItems q segs := by
  intro segs
  induction segs with
  | nil => intro _; rfl
  | cons seg rest ih =>
    intro h
    have hseg : (trimChars seg).length ≤ n :=
      le_trans (trimChars_length_le seg) (h seg (List.mem_cons_self _ _))
    rw [parseItems, parseItems]
    by_cases he : (trimChars seg).isEmpty
    · rw [if_pos he, if_pos he]
      exact ih (fun s hs => h s (List.mem_cons_of_mem _ hs))
    · rw [if_neg he, if_neg he, hpq _ hseg, ih (fun s hs => h s (List.mem_cons_of_mem _ hs))]

theorem parsePairs_congr {p q : List Char → Except Err Value} {n : Nat}
    (hpq : ∀ l : List Char, l.length ≤ n → p l = q l) :
    ∀ segs : List (List Char), (∀ seg ∈ segs, seg.length ≤ n) →
    ∀ acc, parsePairs p segs acc = parsePairs q segs acc := by
  intro segs
  induction segs with
  | nil => intro _ acc; rfl
  | cons seg rest ih =>
    intro h acc
    have hseg : (trimChars seg).length ≤ n :=
      le_trans (trimChars_length_le seg) (h seg (List.mem_cons_self _ _))
    rw [parsePairs, parsePairs]
    by_cases he : (trimChars seg).isEmpty
    · rw [if_pos he, if_pos he]
      exact ih (fun s hs => h s (List.mem_cons_of_mem _ hs)) acc
    · rw [if_neg he, if_neg he]
      match hsp : splitFirstEq (trimChars seg) with
      | none => rfl
      | some kv =>
        dsimp only
        obtain ⟨heq, -⟩ := splitFirstEq_eq hsp
        have hk : (trimChars kv.1).length ≤ n := by
          have := congrArg List.length heq
          simp only [List.length_append, List.length_cons] at this
          have := trimChars_length_le kv.1
          omega
        have hv : (trimChars kv.2).length ≤ n := by
          have := congrArg List.length heq
          simp only [List.length_append, List.length_cons] at this
          have := trimChars_length_le kv.2
          omega
        by_cases hke : (trimChars kv.1).isEmpty ∨ (trimChars kv.2).isEmpty
        · rw [if_pos hke, if_pos hke]
          exact ih (fun s hs => h s (List.mem_cons_of_mem _ hs)) acc
        · rw [if_neg hke, if_neg hke, hpq _ hk, hpq _ hv]
          have hrec : ∀ a2, parsePairs p rest a2 = parsePairs q rest a2 :=
            ih (fun s hs => h s (List.mem_cons_of_mem _ hs))
          cases q (trimChars kv.1) with
          | error e => rfl
          | ok kp =>
            cases q (trimChars kv.2) with
            | error e => rfl
            | ok vp => exact hrec _

mutual
theorem deserializeVF_congr : ∀ (f g : Nat) (cs : List Char), cs.length < f →
    cs.length < g → deserializeVF f cs = deserializeVF g cs := by
  intro f g cs hf hg
  match f, g with
  | f' + 1, g' + 1 =>
    rw [deserializeVF, deserializeVF]
    rw [deserializeTF_congr f' g' cs (by omega) (by omega)]
theorem deserializeTF_congr : ∀ (f g : Nat) (cs : List Char), cs.length ≤ f →
    cs.length ≤ g → deserializeTF f cs = deserializeTF g cs := by
  intro f g cs hf hg
  match f, g with
  | 0, 0 => rfl
  | 0, g' + 1 =>
    have : cs = [] := List.length_eq_zero.mp (by omega)
    subst this
    simp [deserializeTF]
  | f' + 1, 0 =>
    have : cs = [] := List.length_eq_zero.mp (by omega)
    subst this
    simp [deserializeTF]
  | f' + 1, g' + 1 =>
    rw [deserializeTF, deserializeTF]
    by_cases hemp : cs.isEmpty
    · rw [if_pos hemp, if_pos hemp]
    · rw [if_neg hemp, if_neg hemp]
      by_cases hsq : cs.head? = some '['
      · rw [if_pos hsq, if_pos hsq]
        by_cases hlen : cs.length < 2 ∨ ¬cs.getLast? = some ']'
        · rw [if_pos hlen, if_pos hlen]
        · rw [if_neg hlen, if_neg hlen]
          by_cases hlen2 : cs.length = 2
          · rw [if_pos hlen2, if_pos hlen2]
          · rw [if_neg hlen2, if_neg hlen2]
            have hcl : ((cs.drop 1).dropLast).length = cs.length - 1 - 1 := content_length
            have hcong := parseItems_congr (n := cs.length - 1 - 1)
              (fun l hl => deserializeVF_congr f' g' l (by omega) (by omega))
              (splitTop ((cs.drop 1).dropLast))
              (fun seg hs => le_trans (splitTop_mem_length hs) (le_of_eq hcl))
            rw [hcong]
      · rw [if_neg hsq, if_neg hsq]
        by_cases hsq2 : cs.head? = some '{'
        · rw [if_pos hsq2, if_pos hsq2]
          by_cases hlen : cs.length < 2 ∨ ¬cs.getLast? = some '}'
          · rw [if_pos hlen, if_pos hlen]
          · rw [if_neg hlen, if_neg hlen]
            by_cases hlen2 : cs.length = 2
            · rw [if_pos hlen2, if_pos hlen2]
            · rw [if_neg hlen2, if_neg hlen2]
              have hcl : ((cs.drop 1).dropLast).length = cs.length - 1 - 1 := content_length
              have hcong := parsePairs_congr (n := cs.length - 1 - 1)
                (fun l hl => deserializeVF_congr f' g' l (by omega) (by omega))
                (splitTop ((cs.drop 1).dropLast))
                (fun seg hs => le_trans (splitTop_mem_length hs) (le_of_eq hcl))
                .nil
              rw [hcong]
        · rw [if_neg hsq2, if_neg hsq2]
end

/-! Small structural helpers for the round-trip proof. -/

theorem isEmpty_false_of_ne_nil {l : List Char} (h : l ≠ []) : l.isEmpty = false := by
  cases l with
  | nil => exact absurd rfl h
  | cons c rest => rfl

theorem head?_append_ne {A : List Char} (B : List Char) (h : A ≠ []) :
    (A ++ B).head? = A.head? := by
  cases A with
  | nil => exact absurd rfl h
  | cons a rest => rfl

theorem getLast?_append_ne : ∀ (A : List Char) {B : List Char}, B ≠ [] →
    (A ++ B).getLast? = B.getLast? := by
  intro A
  induction A with
  | nil => intro B _; rfl
  | cons a rest ih =>
    intro B h
    obtain ⟨y, ys, hys⟩ := List.exists_cons_of_ne_nil (by
      intro hx
      rcases List.append_eq_nil.mp hx with ⟨-, h2⟩
      exact h h2 : rest ++ B ≠ [])
    rw [List.cons_append, hys, List.getLast?_cons_cons, ← hys, ih h]

theorem content_shape (c e : Char) (A : List Char) :
    (((c :: A) ++ [e]).drop 1).dropLast = A := by
  rw [List.cons_append, List.drop_one, List.tail_cons, List.dropLast_concat]

theorem contains_true_of_mem {l : List Char} {c : Char} (h : c ∈ l) : l.contains c = true := by
  exact List.elem_eq_true_of_mem h

theorem contains_false_of_not_mem {l : List Char} {c : Char} (h : c ∉ l) :
    l.contains c = false := by
  by_contra hc
  rw [Bool.not_eq_false] at hc
  exact h (List.mem_of_elem_eq_true hc)

theorem serializeArrE_cons_ne_nil (k v : Value) (rest : Entries) :
    serializeArrE (.cons k v rest) ≠ [] := by
  cases rest with
  | nil => exact serializeV_ne_nil v
  | cons k2 v2 rest2 =>
    rw [serializeArrE]
    intro h
    exact serializeV_ne_nil v (List.append_eq_nil.mp h).1

theorem serializeObjE_cons_ne_nil (k v : Value) (rest : Entries) :
    serializeObjE (.cons k v rest) ≠ [] := by
  cases rest with
  | nil =>
    rw [serializeObjE]
    intro h
    exact serializeV_ne_nil k (List.append_eq_nil.mp h).1
  | cons k2 v2 rest2 =>
    rw [serializeObjE]
    intro h
    exact serializeV_ne_nil k (List.append_eq_nil.mp (List.append_eq_nil.mp h).1).1

theorem serializeKey_no_eq {k : Value} (h : mapKeyOK k = true) : '=' ∉ serializeV k := by
  intro hm
  cases k with
  | vint n =>
    rcases intChars_mem n '=' hm with hd | hd
    · exact (isDigit_props hd).2.2.2.2.2.1 rfl
    · exact absurd hd (by decide)
  | vfloat q =>
    rcases format1Chars_mem q '=' hm with hd | hd | hd
    · exact (isDigit_props hd).2.2.2.2.2.1 rfl
    · exact absurd hd (by decide)
    · exact absurd hd (by decide)
  | vbool b => cases b <;> simp_all [serializeV]
  | vstr s =>
    rw [mapKeyOK, Bool.and_eq_true] at h
    rw [serializeV] at hm
    rcases List.mem_append.mp hm with h2 | h2
    · rcases List.mem_cons.mp h2 with h3 | h3
      · exact absurd h3 (by decide)
      · have := List.all_eq_true.mp h.2 '=' h3
        simp at this
    · rw [List.mem_singleton] at h2
      exact absurd h2 (by decide)
  | vtable a t => exact absurd h (by rw [mapKeyOK]; simp)

theorem trim_objSegment (k v : Value) :
    trimChars (serializeV k ++ '=' :: serializeV v) = serializeV k ++ '=' :: serializeV v := by
  apply trimChars_eq_self
  · intro c hc
    rw [head?_append_ne _ (serializeV_ne_nil k)] at hc
    exact (serializeV_edges k).1 c hc
  · intro c hc
    rw [getLast?_append_ne _ (by simp : ('=' :: serializeV v) ≠ [])] at hc
    have hvne := serializeV_ne_nil v
    rw [show ('=' :: serializeV v) = ['='] ++ serializeV v by rfl,
      getLast?_append_ne _ hvne] at hc
    exact (serializeV_edges v).2 c hc

/-! Ordering facts for the object-parsing accumulator. -/

theorem keysBelow_of_accBelowN : ∀ {acc : Entries} {k v : Value} {rest : Entries},
    accBelowN acc (.cons k v rest) = true → keysBelow acc (normV k) = true := by
  intro acc
  cases acc with
  | nil => intro k v rest _; rfl
  | cons k2 v2 acc2 =>
    intro k v rest h
    rw [accBelowN, Bool.and_eq_true] at h
    rw [keysBelow, Bool.and_eq_true]
    have h1 := h.1
    rw [keysAboveN, Bool.and_eq_true] at h1
    exact ⟨h1.1, keysBelow_of_accBelowN h.2⟩

theorem accBelowN_weaken : ∀ {acc : Entries} {k v : Value} {rest : Entries},
    accBelowN acc (.cons k v rest) = true → accBelowN acc rest = true := by
  intro acc
  cases acc with
  | nil => intro k v rest _; rfl
  | cons k2 v2 acc2 =>
    intro k v rest h
    rw [accBelowN, Bool.and_eq_true] at h
    have h1 := h.1
    rw [keysAboveN, Bool.and_eq_true] at h1
    rw [accBelowN, Bool.and_eq_true]
    exact ⟨h1.2, accBelowN_weaken h.2⟩

theorem accBelowN_append : ∀ (a b : Entries) (es : Entries),
    accBelowN (appendE a b) es = (accBelowN a es && accBelowN b es) := by
  intro a b es
  cases a with
  | nil => rfl
  | cons k v rest =>
    rw [appendE, accBelowN, accBelowN, accBelowN_append rest b es, Bool.and_assoc]

theorem accBelowN_single {nk : Value} (v : Value) {es : Entries}
    (h : keysAboveN nk es = true) : accBelowN (.cons nk v .nil) es = true := by
  rw [accBelowN, accBelowN, h]
  rfl

/-! One-step unfoldings of the value parser. -/

theorem deserializeVF_succ_some {fuel : Nat} {cs : List Char} {v : Value}
    (hne : cs ≠ []) (hnum : numM cs = some v) : deserializeVF (fuel + 1) cs = .ok v := by
  rw [deserializeVF, if_neg (by simp [isEmpty_false_of_ne_nil hne]), hnum]

theorem deserializeVF_succ_none {fuel : Nat} {cs : List Char}
    (hne : cs ≠ []) (hnum : numM cs = none) :
    deserializeVF (fuel + 1) cs =
      (if cs = "true".data then .ok (.vbool true)
       else if cs = "false".data then .ok (.vbool false)
       else if 2 ≤ cs.length ∧ cs.head? = some '"' ∧ cs.getLast? = some '"' then
         .ok (.vstr ⟨(cs.drop 1).dropLast⟩)
       else if cs.head? = some '[' ∨ cs.head? = some '{' then
         (deserializeTF fuel cs).map (.vtable 0)
       else .ok (.vstr ⟨cs⟩)) := by
  rw [deserializeVF, if_neg (by simp [isEmpty_false_of_ne_nil hne]), hnum]

/-! The round trip: deserializing a serialized well-formed value yields its
normalization (floats replaced by their one-decimal reading, parsed tables
carrying identity token 0). -/

mutual
theorem rtV : ∀ (v : Value), wfV v = true → ∀ fuel : Nat, (serializeV v).length < fuel →
    deserializeVF fuel (serializeV v) = .ok (normV v) := by
  intro v hwf fuel hlen
  obtain ⟨fuel, rfl⟩ : ∃ f2, fuel = f2 + 1 := ⟨fuel - 1, by omega⟩
  cases v with
  | vint n =>
    rw [wfV, decide_eq_true_eq] at hwf
    have hnum : numM (serializeV (.vint n)) = some (.vint n) := by
      rw [numM, contains_false_of_not_mem (l := serializeV (.vint n)) (by
        intro hm
        rcases intChars_mem n '.' hm with hd | hd
        · exact (isDigit_props hd).2.2.1 rfl
        · exact absurd hd (by decide))]
      simp only [Bool.false_eq_true, if_false]
      rw [show serializeV (.vint n) = intChars n from rfl, stoiM_intChars hwf.1 hwf.2]
      rfl
    rw [deserializeVF_succ_some (serializeV_ne_nil _) hnum]
    rfl
  | vfloat q =>
    rw [wfV, decide_eq_true_eq] at hwf
    have hdot : (serializeV (.vfloat q)).contains '.' = true := contains_true_of_mem (by
      simp only [serializeV, format1Chars]
      exact List.mem_append_right _ (List.mem_cons_self _ _))
    have hnum : numM (serializeV (.vfloat q)) = some (.vfloat ((rhe (10 * q) : ℚ) / 10)) := by
      rw [numM, if_pos hdot, show serializeV (.vfloat q) = format1Chars q from rfl,
        stofM_format1 hwf]
      rfl
    rw [deserializeVF_succ_some (serializeV_ne_nil _) hnum]
    rfl
  | vbool b => cases b <;> rfl
  | vstr s =>
    rw [wfV] at hwf
    have hcons : serializeV (.vstr s) = '"' :: (s.data ++ ['"']) := by
      rw [serializeV, List.cons_append]
    have hnum : numM (serializeV (.vstr s)) = none := by
      rw [hcons]
      exact numM_not_num (by decide) (by decide) (by decide) (by decide) (by decide)
    rw [deserializeVF_succ_none (serializeV_ne_nil _) hnum]
    rw [if_neg (by rw [hcons]; simp), if_neg (by rw [hcons]; simp)]
    rw [if_pos ⟨by rw [serializeV]; simp, by rw [hcons]; rfl,
      by rw [serializeV, List.getLast?_concat]⟩]
    rw [show ((serializeV (.vstr s)).drop 1).dropLast = s.data from by
      rw [serializeV, content_shape]]
    rfl
  | vtable a t =>
    rw [wfV] at hwf
    obtain ⟨es, ia⟩ := t
    have hhead := serializeT_head (.mk es ia)
    have hbr : ∃ br rest2, serializeT (.mk es ia) = br :: rest2 ∧ (br = '[' ∨ br = '{') := by
      rcases hhead with h | h
      · obtain ⟨c, rest2, hcr⟩ := List.exists_cons_of_ne_nil
          (l := serializeT (.mk es ia)) (by
            rw [serializeT_shape]
            simp)
        rw [hcr] at h
        refine ⟨c, rest2, hcr, Or.inl ?_⟩
        simpa using h
      · obtain ⟨c, rest2, hcr⟩ := List.exists_cons_of_ne_nil
          (l := serializeT (.mk es ia)) (by
            rw [serializeT_shape]
            simp)
        rw [hcr] at h
        refine ⟨c, rest2, hcr, Or.inr ?_⟩
        simpa using h
    obtain ⟨br, rest2, hcr, hbr2⟩ := hbr
    have hnum : numM (serializeV (.vtable a (.mk es ia))) = none := by
      rw [show serializeV (.vtable a (.mk es ia)) = serializeT (.mk es ia) from rfl, hcr]
      rcases hbr2 with rfl | rfl
      · exact numM_not_num (by decide) (by decide) (by decide) (by decide) (by decide)
      · exact numM_not_num (by decide) (by decide) (by decide) (by decide) (by decide)
    have hser : serializeV (.vtable a (.mk es ia)) = serializeT (.mk es ia) := rfl
    rw [deserializeVF_succ_none (serializeV_ne_nil _) hnum, hser]
    rw [if_neg (by rw [hcr]; rcases hbr2 with rfl | rfl <;> simp),
      if_neg (by rw [hcr]; rcases hbr2 with rfl | rfl <;> simp)]
    rw [if_neg (by
      rw [hcr]
      intro hq
      have := hq.2.1
      rw [List.head?_cons, Option.some.injEq] at this
      rcases hbr2 with rfl | rfl <;> simp at this)]
    rw [if_pos hhead]
    rw [rtT (.mk es ia) hwf fuel (by
      rw [hser] at hlen
      omega)]
    rfl
theorem rtT : ∀ (t : Table), wfT t = true → ∀ fuel : Nat, (serializeT t).length ≤ fuel →
    deserializeTF fuel (serializeT t) = .ok (normT t) := by
  intro t hwf fuel hlen
  obtain ⟨es, ia⟩ := t
  cases ia
  · -- map mode
    rw [wfT] at hwf
    have hshape : serializeT (.mk es false) = ('{' :: serializeObjE es) ++ ['}'] := by
      rw [serializeT_shape]
      simp
    rw [hshape] at hlen ⊢
    have hlenval : (('{' :: serializeObjE es) ++ ['}']).length = (serializeObjE es).length + 2 := by
      simp
    obtain ⟨fuel, rfl⟩ : ∃ f2, fuel = f2 + 1 := ⟨fuel - 1, by omega⟩
    rw [deserializeTF]
    rw [if_neg (by simp), if_neg (by rw [head?_append_ne _ (by simp)]; simp)]
    rw [if_pos (by rw [head?_append_ne _ (by simp)]; rfl)]
    rw [if_neg (by
      rw [List.getLast?_concat]
      simp)]
    cases es with
    | nil => rfl
    | cons k v rest =>
      rw [if_neg (by
        have h1 := serializeObjE_cons_ne_nil k v rest
        have h2 : 1 ≤ (serializeObjE (.cons k v rest)).length := by
          cases h : serializeObjE (.cons k v rest) with
          | nil => exact absurd h h1
          | cons x xs => simp
        have h3 : (('{' :: serializeObjE (.cons k v rest)) ++ ['}']).length =
            (serializeObjE (.cons k v rest)).length + 2 := by simp
        omega)]
      rw [content_shape]
      rw [rtObjE (.cons k v rest) hwf (by simp) fuel (by
        have h3 : (('{' :: serializeObjE (.cons k v rest)) ++ ['}']).length =
            (serializeObjE (.cons k v rest)).length + 2 := by simp
        omega) .nil rfl]
      rw [show appendE .nil (normE (.cons k v rest)) = normE (.cons k v rest) from rfl]
      rfl
  · -- array mode
    rw [wfT] at hwf
    have hshape : serializeT (.mk es true) = ('[' :: serializeArrE es) ++ [']'] := by
      rw [serializeT_shape]
      simp
    rw [hshape] at hlen ⊢
    have hlenval : (('[' :: serializeArrE es) ++ [']']).length = (serializeArrE es).length + 2 := by
      simp
    obtain ⟨fuel, rfl⟩ : ∃ f2, fuel = f2 + 1 := ⟨fuel - 1, by omega⟩
    rw [deserializeTF]
    rw [if_neg (by simp)]
    rw [if_pos (by rw [head?_append_ne _ (by simp)]; rfl)]
    rw [if_neg (by
      rw [List.getLast?_concat]
      simp)]
    cases es with
    | nil => rfl
    | cons k v rest =>
      rw [if_neg (by
        have h1 := serializeArrE_cons_ne_nil k v rest
        have h2 : 1 ≤ (serializeArrE (.cons k v rest)).length := by
          cases h : serializeArrE (.cons k v rest) with
          | nil => exact absurd h h1
          | cons x xs => simp
        have h3 : (('[' :: serializeArrE (.cons k v rest)) ++ [']']).length =
            (serializeArrE (.cons k v rest)).length + 2 := by simp
        omega)]
      rw [content_shape]
      rw [rtArrE (.cons k v rest) 0 hwf fuel (by
        have h3 : (('[' :: serializeArrE (.cons k v rest)) ++ [']']).length =
            (serializeArrE (.cons k v rest)).length + 2 := by simp
        omega)]
      have hov : Table.ofVector (valuesE (normE (.cons k v rest))) =
          .mk (normE (.cons k v rest)) true := by
        rw [Table.ofVector, ofVectorAux_eq _ 0 .nil (by rfl),
          show appendE .nil (enumE (valuesE (normE (.cons k v rest))) 0) =
            enumE (valuesE (normE (.cons k v rest))) 0 from rfl,
          enumE_normE (.cons k v rest) 0 hwf]
      rw [show Except.map Table.ofVector (Except.ok (valuesE (normE (.cons k v rest))) :
        Except Err (List Value)) = .ok (Table.ofVector (valuesE (normE (.cons k v rest))))
        from rfl, hov]
      rfl
theorem rtArrE : ∀ (es : Entries) (i : Nat), wfArrE es i = true → ∀ fuel : Nat,
    (serializeArrE es).length < fuel →
    parseItems (fun l => deserializeVF fuel l) (splitTop (serializeArrE es)) =
      .ok (valuesE (normE es)) := by
  intro es i hwf fuel hlen
  cases es with
  | nil => rfl
  | cons k v rest =>
    rw [wfArrE, Bool.and_eq_true, Bool.and_eq_true] at hwf
    obtain ⟨⟨-, hv⟩, hrest⟩ := hwf
    cases rest with
    | nil =>
      rw [show serializeArrE (.cons k v .nil) = serializeV v from rfl] at hlen ⊢
      rw [splitTop_block (scanB_serializeV v hv 0 le_rfl)]
      simp only [parseItems, trim_serializeV,
        isEmpty_false_of_ne_nil (serializeV_ne_nil v), Bool.false_eq_true, if_false]
      rw [rtV v hv fuel hlen]
      rfl
    | cons k2 v2 rest2 =>
      rw [serializeArrE] at hlen ⊢
      have hsplit := @splitTop_block_comma _ (serializeArrE (.cons k2 v2 rest2))
        (scanB_serializeV v hv 0 le_rfl)
      rw [hsplit]
      simp only [parseItems, trim_serializeV,
        isEmpty_false_of_ne_nil (serializeV_ne_nil v), Bool.false_eq_true, if_false]
      have hlen1 : (serializeV v).length < fuel := by
        simp only [List.length_append, List.length_cons] at hlen
        omega
      have hlen2 : (serializeArrE (.cons k2 v2 rest2)).length < fuel := by
        simp only [List.length_append, List.length_cons] at hlen
        omega
      rw [rtV v hv fuel hlen1, rtArrE (.cons k2 v2 rest2) (i + 1) hrest fuel hlen2]
      rfl
theorem rtObjE : ∀ (es : Entries), wfMapE es = true → es ≠ .nil → ∀ fuel : Nat,
    (serializeObjE es).length < fuel → ∀ acc : Entries, accBelowN acc es = true →
    parsePairs (fun l => deserializeVF fuel l) (splitTop (serializeObjE es)) acc =
      .ok (appendE acc (normE es)) := by
  intro es hwf hne fuel hlen acc hacc
  cases es with
  | nil => exact absurd rfl hne
  | cons k v rest =>
    rw [wfMapE] at hwf
    simp only [Bool.and_eq_true] at hwf
    obtain ⟨⟨⟨⟨hkOK, hvwf⟩, -⟩, hkN⟩, hrest⟩ := hwf
    have hkwf := wfV_of_mapKeyOK hkOK
    have hscanSeg : scanB (serializeV k ++ '=' :: serializeV v) 0 = some 0 := by
      rw [scanB_append, scanB_serializeV k hkwf 0 le_rfl, Option.some_bind]
      rw [scanB_cons_inert (c := '=') rfl (by decide) le_rfl]
      exact scanB_serializeV v hvwf 0 le_rfl
    have hstep : ∀ rest3 acc2, parsePairs (fun l => deserializeVF fuel l)
        ((serializeV k ++ '=' :: serializeV v) :: rest3) acc2 =
        (if (serializeV k).length < fuel ∧ (serializeV v).length < fuel then
          parsePairs (fun l => deserializeVF fuel l) rest3
            (mapInsert (normV k) (normV v) acc2)
        else parsePairs (fun l => deserializeVF fuel l)
          ((serializeV k ++ '=' :: serializeV v) :: rest3) acc2) := by
      intro rest3 acc2
      by_cases hb : (serializeV k).length < fuel ∧ (serializeV v).length < fuel
      · rw [if_pos hb]
        rw [parsePairs, trim_objSegment]
        rw [if_neg (by simp [isEmpty_false_of_ne_nil
          (by simp [serializeV_ne_nil k] :
            (serializeV k ++ '=' :: serializeV v) ≠ [])])]
        rw [splitFirstEq_append _ (serializeKey_no_eq hkOK)]
        simp only [trim_serializeV]
        rw [if_neg (by
          simp [isEmpty_false_of_ne_nil (serializeV_ne_nil k),
            isEmpty_false_of_ne_nil (serializeV_ne_nil v)])]
        rw [rtV k hkwf fuel hb.1, rtV v hvwf fuel hb.2]
        rfl
      · rw [if_neg hb]
    cases rest with
    | nil =>
      rw [show serializeObjE (.cons k v .nil) = serializeV k ++ '=' :: serializeV v
        from rfl] at hlen ⊢
      rw [splitTop_block hscanSeg]
      have hb : (serializeV k).length < fuel ∧ (serializeV v).length < fuel := by
        simp only [List.length_append, List.length_cons] at hlen
        constructor <;> omega
      rw [hstep [] acc, if_pos hb]
      rw [parsePairs]
      rw [mapInsert_append _ _ (keysBelow_of_accBelowN hacc)]
      rfl
    | cons k2 v2 rest2 =>
      rw [serializeObjE] at hlen ⊢
      have hsplit := @splitTop_block_comma _
        (serializeObjE (.cons k2 v2 rest2)) hscanSeg
      rw [hsplit]
      have hb : (serializeV k).length < fuel ∧ (serializeV v).length < fuel := by
        simp only [List.length_append, List.length_cons] at hlen
        constructor <;> omega
      rw [hstep _ acc, if_pos hb]
      rw [mapInsert_append _ _ (keysBelow_of_accBelowN hacc)]
      have hacc2 : accBelowN (appendE acc (.cons (normV k) (normV v) .nil))
          (.cons k2 v2 rest2) = true := by
        rw [accBelowN_append, Bool.and_eq_true]
        exact ⟨accBelowN_weaken hacc, accBelowN_single _ hkN⟩
      have hlen3 : (serializeObjE (.cons k2 v2 rest2)).length < fuel := by
        simp only [List.length_append, List.length_cons] at hlen
        omega
      rw [rtObjE (.cons k2 v2 rest2) hrest (by simp) fuel hlen3 _ hacc2]
      rw [appendE_assoc]
      rfl
end

/-! The string order of the model against the natural String order. -/

theorem chLt_iff (c d : Char) : chLt c d = true ↔ c < d := by
  rw [chLt, decide_eq_true_eq]
  exact Iff.rfl

theorem strLt_iff : ∀ a b : List Char, strLt a b = true ↔ a < b := by
  intro a
  induction a with
  | nil =>
    intro b
    cases b with
    | nil =>
      rw [strLt]
      constructor
      · intro h; exact absurd h (by simp)
      · intro h; cases h
    | cons d ds =>
      rw [strLt]
      exact ⟨fun _ => List.Lex.nil, fun _ => rfl⟩
  | cons c cs ih =>
    intro b
    cases b with
    | nil =>
      rw [strLt]
      constructor
      · intro h; exact absurd h (by simp)
      · intro h; cases h
    | cons d ds =>
      rw [strLt]
      constructor
      · intro h
        by_cases h1 : chLt c d = true
        · exact List.Lex.rel ((chLt_iff c d).mp h1)
        · rw [if_neg h1] at h
          by_cases h2 : chLt d c = true
          · rw [if_pos h2] at h
            exact absurd h (by simp)
          · rw [if_neg h2] at h
            have hcd : c = d :=
              le_antisymm (le_of_not_lt (fun hc => h2 ((chLt_iff d c).mpr hc)))
                (le_of_not_lt (fun hc => h1 ((chLt_iff c d).mpr hc)))
            subst hcd
            exact List.Lex.cons ((ih ds).mp h)
      · intro h
        cases h with
        | rel hlt => rw [if_pos ((chLt_iff c d).mpr hlt)]
        | cons htl =>
          rw [if_neg (by rw [chLt]; simp), if_neg (by rw [chLt]; simp)]
          exact (ih ds).mpr htl

theorem strLt_irrefl : ∀ a : List Char, strLt a a = false := by
  intro a
  induction a with
  | nil => rfl
  | cons c cs ih =>
    rw [strLt, if_neg (by rw [chLt]; simp), if_neg (by rw [chLt]; simp)]
    exact ih

theorem eq_of_strLt_false : ∀ a b : List Char, strLt a b = false → strLt b a = false →
    a = b := by
  intro a
  induction a with
  | nil =>
    intro b h1 _
    cases b with
    | nil => rfl
    | cons d ds => exact absurd h1 (by rw [strLt]; simp)
  | cons c cs ih =>
    intro b h1 h2
    cases b with
    | nil => exact absurd h2 (by rw [strLt]; simp)
    | cons d ds =>
      rw [strLt] at h1 h2
      by_cases hc1 : chLt c d = true
      · rw [if_pos hc1] at h1
        exact absurd h1 (by simp)
      · by_cases hc2 : chLt d c = true
        · rw [if_pos hc2] at h2
          exact absurd h2 (by simp)
        · rw [if_neg hc1, if_neg hc2] at h1
          rw [if_neg hc2, if_neg hc1] at h2
          have hcd : c = d := by
            rw [chLt, decide_eq_true_eq] at hc1 hc2
            have htn : c.toNat = d.toNat := by omega
            exact Char.ext (UInt32.ext htn)
          rw [hcd, ih ds h1 h2]

/-! Equality mirrors the strict order, per payload type. -/

theorem eqValue_mirror : ∀ a b : Value, eqValue a b = (!ltValue a b && !ltValue b a) := by
  intro a b
  cases a <;> cases b
  case vint.vint x y =>
    show decide (x = y) = (!decide (x < y) && !decide (y < x))
    rcases lt_trichotomy x y with h | h | h
    · simp [ne_of_lt h, h]
    · subst h
      simp
    · simp [ne_of_gt h, h, lt_asymm h]
  case vfloat.vfloat x y =>
    show decide (x = y) = (!decide (x < y) && !decide (y < x))
    rcases lt_trichotomy x y with h | h | h
    · simp [ne_of_lt h, h]
    · subst h
      simp
    · simp [ne_of_gt h, h, lt_asymm h]
  case vbool.vbool x y =>
    cases x <;> cases y <;> rfl
  case vstr.vstr x y =>
    show decide (x = y) = (!strLt x.data y.data && !strLt y.data x.data)
    by_cases h : x = y
    · subst h
      simp [strLt_irrefl]
    · rw [decide_eq_false h]
      cases hlt : strLt x.data y.data
      · cases hlt2 : strLt y.data x.data
        · refine absurd ?_ h
          have hd := eq_of_strLt_false _ _ hlt hlt2
          cases x
          cases y
          exact congrArg String.mk hd
        · rfl
      · rfl
  case vtable.vtable a1 t1 a2 t2 =>
    show decide (a1 = a2) = (!decide (a1 < a2) && !decide (a2 < a1))
    rcases lt_trichotomy a1 a2 with h | h | h
    · simp [ne_of_lt h, h]
    · subst h
      simp
    · simp [ne_of_gt h, h, lt_asymm h]
  all_goals rfl

/-! Sorted maps stay sorted under insertion. -/

theorem keysAbove_of_lt : ∀ {k k2 : Value} {rest : Entries}, ltValue k k2 = true →
    keysAbove k2 rest = true → keysAbove k rest = true := by
  intro k k2 rest
  cases rest with
  | nil => intro _ _; rfl
  | cons k3 v3 rest2 =>
    intro hlt h
    rw [keysAbove, Bool.and_eq_true] at h ⊢
    exact ⟨ltValue_trans _ _ _ hlt h.1, keysAbove_of_lt hlt h.2⟩

theorem keysAbove_mapInsert : ∀ {k2 k v : Value} {rest : Entries},
    keysAbove k2 rest = true → ltValue k2 k = true →
    keysAbove k2 (mapInsert k v rest) = true := by
  intro k2 k v rest
  cases rest with
  | nil =>
    intro _ hlt
    rw [mapInsert, keysAbove, keysAbove, hlt]
    rfl
  | cons k3 v3 rest2 =>
    intro h hlt
    rw [keysAbove, Bool.and_eq_true] at h
    rw [mapInsert]
    by_cases h1 : ltValue k k3 = true
    · rw [if_pos h1, keysAbove, keysAbove, hlt, h.1, Bool.and_eq_true]
      exact ⟨rfl, h.2⟩
    · rw [if_neg (by rw [Bool.not_eq_true] at h1 ⊢; exact h1)]
      by_cases h2 : ltValue k3 k = true
      · rw [if_pos h2, keysAbove, h.1, Bool.and_eq_true]
        exact ⟨rfl, keysAbove_mapInsert h.2 hlt⟩
      · rw [if_neg (by rw [Bool.not_eq_true] at h2 ⊢; exact h2), keysAbove, h.1,
          Bool.and_eq_true]
        exact ⟨rfl, h.2⟩

theorem sortedE_mapInsert : ∀ (k v : Value) (es : Entries), sortedE es = true →
    sortedE (mapInsert k v es) = true := by
  intro k v es
  cases es with
  | nil =>
    intro _
    rw [mapInsert, sortedE, sortedE, keysAbove]
    rfl
  | cons k2 v2 rest =>
    intro h
    rw [sortedE, Bool.and_eq_true] at h
    rw [mapInsert]
    by_cases h1 : ltValue k k2 = true
    · rw [if_pos h1, sortedE, sortedE, keysAbove, h1, Bool.and_eq_true, Bool.and_eq_true,
        Bool.and_eq_true]
      exact ⟨⟨rfl, keysAbove_of_lt h1 h.1⟩, h.1, h.2⟩
    · rw [if_neg (by rw [Bool.not_eq_true] at h1 ⊢; exact h1)]
      by_cases h2 : ltValue k2 k = true
      · rw [if_pos h2, sortedE, Bool.and_eq_true]
        exact ⟨keysAbove_mapInsert h.1 h2, sortedE_mapInsert k v rest h.2⟩
      · rw [if_neg (by rw [Bool.not_eq_true] at h2 ⊢; exact h2), sortedE, Bool.and_eq_true]
        exact ⟨h.1, h.2⟩

/-! Map serialization never emits a trailing comma: the character before the
closing brace is the last character of a serialized value. -/

theorem serializeV_getLast_ne_comma (v : Value) :
    ∀ c, (serializeV v).getLast? = some c → ¬c = ',' := by
  intro c hc
  cases v with
  | vint n =>
    rcases intChars_mem n c (List.mem_of_mem_getLast? hc) with h | h
    · exact (isDigit_props h).2.1
    · subst h; decide
  | vfloat q =>
    rcases format1Chars_mem q c (List.mem_of_mem_getLast? hc) with h | h | h
    · exact (isDigit_props h).2.1
    · subst h; decide
    · subst h; decide
  | vbool b =>
    have hm := List.mem_of_mem_getLast? hc
    cases b
    · exact (by decide : ∀ x ∈ serializeV (Value.vbool false), ¬x = ',') c hm
    · exact (by decide : ∀ x ∈ serializeV (Value.vbool true), ¬x = ',') c hm
  | vstr s =>
    rw [serializeV, List.getLast?_concat, Option.some.injEq] at hc
    subst hc
    decide
  | vtable a t =>
    obtain ⟨es, ia⟩ := t
    rw [serializeV, serializeT_shape, List.getLast?_concat, Option.some.injEq] at hc
    subst hc
    cases ia <;> decide

theorem serializeObjE_getLast_ne_comma : ∀ (es : Entries) (c : Char),
    (serializeObjE es).getLast? = some c → ¬c = ',' := by
  intro es c hc
  cases es with
  | nil => exact absurd hc (by rw [serializeObjE]; simp)
  | cons k v rest =>
    cases rest with
    | nil =>
      rw [serializeObjE, getLast?_append_ne _ (by simp),
        show ('=' :: serializeV v) = ['='] ++ serializeV v from rfl,
        getLast?_append_ne _ (serializeV_ne_nil v)] at hc
      exact serializeV_getLast_ne_comma v c hc
    | cons k2 v2 rest2 =>
      rw [serializeObjE, getLast?_append_ne _ (by simp),
        show (',' :: serializeObjE (.cons k2 v2 rest2)) =
          [','] ++ serializeObjE (.cons k2 v2 rest2) from rfl,
        getLast?_append_ne _ (serializeObjE_cons_ne_nil k2 v2 rest2)] at hc
      exact serializeObjE_getLast_ne_comma (.cons k2 v2 rest2) c hc

/-! The parser errors exactly as the spec's enumeration predicts. -/

theorem exceptMap_error_iff {α β : Type} {f : α → β} {x : Except Err α} {e : Err} :
    Except.map f x = .error e ↔ x = .error e := by
  cases x <;> simp [Except.map]

theorem deserializeVF_nonbracket_ok (fuel : Nat) (cs : List Char) (hne : cs ≠ [])
    (h1 : ¬cs.head? = some '[') (h2 : ¬cs.head? = some '{') :
    ∃ v, deserializeVF (fuel + 1) cs = .ok v := by
  cases hnum : numM cs with
  | some v => exact ⟨v, deserializeVF_succ_some hne hnum⟩
  | none =>
    rw [deserializeVF_succ_none hne hnum]
    by_cases ht : cs = "true".data
    · rw [if_pos ht]
      exact ⟨_, rfl⟩
    rw [if_neg ht]
    by_cases hf : cs = "false".data
    · rw [if_pos hf]
      exact ⟨_, rfl⟩
    rw [if_neg hf]
    by_cases hq : 2 ≤ cs.length ∧ cs.head? = some '"' ∧ cs.getLast? = some '"'
    · rw [if_pos hq]
      exact ⟨_, rfl⟩
    rw [if_neg hq, if_neg (by rintro (h | h); exacts [h1 h, h2 h])]
    exact ⟨_, rfl⟩

theorem deserializeVF_bracket (fuel : Nat) (cs : List Char) (hne : cs ≠ [])
    (hb : cs.head? = some '[' ∨ cs.head? = some '{') :
    deserializeVF (fuel + 1) cs = (deserializeTF fuel cs).map (.vtable 0) := by
  obtain ⟨c, rest, rfl⟩ : ∃ c rest, cs = c :: rest := by
    cases cs with
    | nil => exact absurd rfl hne
    | cons c rest => exact ⟨c, rest, rfl⟩
  have hc : c = '[' ∨ c = '{' := by
    rcases hb with h | h
    · left
      simpa using h
    · right
      simpa using h
  have hnum : numM (c :: rest) = none := by
    rcases hc with rfl | rfl
    · exact numM_not_num (by decide) (by decide) (by decide) (by decide) (by decide)
    · exact numM_not_num (by decide) (by decide) (by decide) (by decide) (by decide)
  rw [deserializeVF_succ_none (by simp) hnum]
  have ht : ¬(c :: rest) = "true".data := by
    intro h
    have h2 : some c = some 't' := congrArg List.head? h
    injection h2 with h2
    rcases hc with rfl | rfl <;> exact absurd h2 (by decide)
  have hf : ¬(c :: rest) = "false".data := by
    intro h
    have h2 : some c = some 'f' := congrArg List.head? h
    injection h2 with h2
    rcases hc with rfl | rfl <;> exact absurd h2 (by decide)
  have hq : ¬(2 ≤ (c :: rest).length ∧ (c :: rest).head? = some '"' ∧
      (c :: rest).getLast? = some '"') := by
    rintro ⟨-, hh, -⟩
    have h2 : some c = some '"' := hh
    injection h2 with h2
    rcases hc with rfl | rfl <;> exact absurd h2 (by decide)
  rw [if_neg ht, if_neg hf, if_neg hq, if_pos hb]

theorem specFailsV_succ (fuel : Nat) (cs : List Char) (hne : cs ≠ []) :
    specFailsV (fuel + 1) cs =
      (if cs.head? = some '[' ∨ cs.head? = some '{' then specFailsT fuel cs else none) := by
  rw [specFailsV, if_neg (by simp [isEmpty_false_of_ne_nil hne])]

theorem deserializeTF_succ (fuel : Nat) (cs : List Char) (hne : cs ≠ []) :
    deserializeTF (fuel + 1) cs =
      (if cs.head? = some '[' then
        if cs.length < 2 ∨ ¬cs.getLast? = some ']' then .error .malformedArray
        else if cs.length = 2 then .ok (Table.ofVector [])
        else
          (parseItems (fun l => deserializeVF fuel l) (splitTop ((cs.drop 1).dropLast))).map
            Table.ofVector
      else if cs.head? = some '{' then
        if cs.length < 2 ∨ ¬cs.getLast? = some '}' then .error .malformedTable
        else if cs.length = 2 then .ok (.mk .nil false)
        else
          (parsePairs (fun l => deserializeVF fuel l)
            (splitTop ((cs.drop 1).dropLast)) .nil).map (fun m => .mk m false)
      else .error .unknownType) := by
  rw [deserializeTF, if_neg (by simp [isEmpty_false_of_ne_nil hne])]

theorem specFailsT_succ (fuel : Nat) (cs : List Char) (hne : cs ≠ []) :
    specFailsT (fuel + 1) cs =
      (if cs.head? = some '[' then
        if cs.length < 2 ∨ ¬cs.getLast? = some ']' then some .malformedArray
        else if cs.length = 2 then none
        else specFailsItems (fun l => specFailsV fuel l) (splitTop ((cs.drop 1).dropLast))
      else if cs.head? = some '{' then
        if cs.length < 2 ∨ ¬cs.getLast? = some '}' then some .malformedTable
        else if cs.length = 2 then none
        else specFailsPairs (fun l => specFailsV fuel l) (splitTop ((cs.drop 1).dropLast))
      else some .unknownType) := by
  rw [specFailsT, if_neg (by simp [isEmpty_false_of_ne_nil hne])]

theorem parseItems_error_iff (p : List Char → Except Err Value)
    (sp : List Char → Option Err)
    (hp : ∀ (l : List Char) (e : Err), p l = .error e ↔ sp l = some e) :
    ∀ (segs : List (List Char)) (e : Err),
      parseItems p segs = .error e ↔ specFailsItems sp segs = some e := by
  intro segs
  induction segs with
  | nil =>
    intro e
    rw [parseItems, specFailsItems]
    simp
  | cons seg rest ih =>
    intro e
    rw [parseItems, specFailsItems]
    by_cases hemp : (trimChars seg).isEmpty = true
    · rw [if_pos hemp, if_pos hemp]
      exact ih e
    · rw [if_neg hemp, if_neg hemp]
      cases hps : p (trimChars seg) with
      | error e1 =>
        rw [(hp _ e1).mp hps]
        constructor
        · intro h
          have h2 : (Except.error e1 : Except Err (List Value)) = .error e := h
          injection h2 with h2
          show some e1 = some e
          rw [h2]
        · intro h
          have h2 : some e1 = some e := h
          injection h2 with h2
          show (Except.error e1 : Except Err (List Value)) = .error e
          rw [h2]
      | ok v =>
        have hsp : sp (trimChars seg) = none := by
          cases hspc : sp (trimChars seg) with
          | none => rfl
          | some e1 => exact absurd ((hp _ e1).mpr hspc) (by rw [hps]; simp)
        rw [hsp]
        cases hrest : parseItems p rest with
        | error e2 =>
          constructor
          · intro h
            have h2 : (Except.error e2 : Except Err (List Value)) = .error e := h
            injection h2 with h2
            show specFailsItems sp rest = some e
            rw [← h2]
            exact (ih e2).mp hrest
          · intro h
            have h3 : specFailsItems sp rest = some e := h
            have h4 : parseItems p rest = .error e := (ih e).mpr h3
            rw [hrest] at h4
            injection h4 with h4
            show (Except.error e2 : Except Err (List Value)) = .error e
            rw [h4]
        | ok vs =>
          constructor
          · intro h
            have h2 : (Except.ok (v :: vs) : Except Err (List Value)) = .error e := h
            exact absurd h2 (by simp)
          · intro h
            have h3 : specFailsItems sp rest = some e := h
            have h4 : parseItems p rest = .error e := (ih e).mpr h3
            rw [hrest] at h4
            exact absurd h4 (by simp)

theorem parsePairs_error_iff (p : List Char → Except Err Value)
    (sp : List Char → Option Err)
    (hp : ∀ (l : List Char) (e : Err), p l = .error e ↔ sp l = some e) :
    ∀ (segs : List (List Char)) (acc : Entries) (e : Err),
      parsePairs p segs acc = .error e ↔ specFailsPairs sp segs = some e := by
  intro segs
  induction segs with
  | nil =>
    intro acc e
    rw [parsePairs, specFailsPairs]
    simp
  | cons seg rest ih =>
    intro acc e
    rw [parsePairs, specFailsPairs]
    by_cases hemp : (trimChars seg).isEmpty = true
    · rw [if_pos hemp, if_pos hemp]
      exact ih acc e
    · rw [if_neg hemp, if_neg hemp]
      cases hsplit : splitFirstEq (trimChars seg) with
      | none =>
        constructor
        · intro h
          have h2 : (Except.error Err.missingEq : Except Err Entries) = .error e := h
          injection h2 with h2
          show some Err.missingEq = some e
          rw [h2]
        · intro h
          have h2 : some Err.missingEq = some e := h
          injection h2 with h2
          show (Except.error Err.missingEq : Except Err Entries) = .error e
          rw [h2]
      | some kv =>
        dsimp only
        by_cases hkv : (trimChars kv.1).isEmpty ∨ (trimChars kv.2).isEmpty
        · rw [if_pos hkv, if_pos hkv]
          exact ih acc e
        · rw [if_neg hkv, if_neg hkv]
          cases hpk : p (trimChars kv.1) with
          | error e1 =>
            rw [(hp _ e1).mp hpk]
            constructor
            · intro h
              have h2 : (Except.error e1 : Except Err Entries) = .error e := h
              injection h2 with h2
              show some e1 = some e
              rw [h2]
            · intro h
              have h2 : some e1 = some e := h
              injection h2 with h2
              show (Except.error e1 : Except Err Entries) = .error e
              rw [h2]
          | ok kp =>
            have hspk : sp (trimChars kv.1) = none := by
              cases hspc : sp (trimChars kv.1) with
              | none => rfl
              | some e1 => exact absurd ((hp _ e1).mpr hspc) (by rw [hpk]; simp)
            rw [hspk]
            cases hpv : p (trimChars kv.2) with
            | error e2 =>
              rw [(hp _ e2).mp hpv]
              constructor
              · intro h
                have h2 : (Except.error e2 : Except Err Entries) = .error e := h
                injection h2 with h2
                show some e2 = some e
                rw [h2]
              · intro h
                have h2 : some e2 = some e := h
                injection h2 with h2
                show (Except.error e2 : Except Err Entries) = .error e
                rw [h2]
            | ok vp =>
              have hspv : sp (trimChars kv.2) = none := by
                cases hspc : sp (trimChars kv.2) with
                | none => rfl
                | some e2 => exact absurd ((hp _ e2).mpr hspc) (by rw [hpv]; simp)
              rw [hspv]
              exact ih (mapInsert kp vp acc) e

mutual
theorem errV : ∀ (fuel : Nat) (cs : List Char) (e : Err),
    deserializeVF fuel cs = .error e ↔ specFailsV fuel cs = some e := by
  intro fuel cs e
  match fuel with
  | 0 =>
    constructor
    · intro h
      have h2 : (Except.error Err.emptyData : Except Err Value) = .error e := h
      injection h2 with h2
      show some Err.emptyData = some e
      rw [h2]
    · intro h
      have h2 : some Err.emptyData = some e := h
      injection h2 with h2
      show (Except.error Err.emptyData : Except Err Value) = .error e
      rw [h2]
  | fuel + 1 =>
    by_cases hcs : cs = []
    · subst hcs
      constructor
      · intro h
        have h2 : (Except.error Err.emptyData : Except Err Value) = .error e := h
        injection h2 with h2
        show some Err.emptyData = some e
        rw [h2]
      · intro h
        have h2 : some Err.emptyData = some e := h
        injection h2 with h2
        show (Except.error Err.emptyData : Except Err Value) = .error e
        rw [h2]
    · by_cases hb : cs.head? = some '[' ∨ cs.head? = some '{'
      · rw [deserializeVF_bracket fuel cs hcs hb, specFailsV_succ fuel cs hcs, if_pos hb,
          exceptMap_error_iff]
        exact errT fuel cs e
      · obtain ⟨v, hv⟩ := deserializeVF_nonbracket_ok fuel cs hcs
          (fun h => hb (Or.inl h)) (fun h => hb (Or.inr h))
        rw [hv, specFailsV_succ fuel cs hcs, if_neg hb]
        simp
theorem errT : ∀ (fuel : Nat) (cs : List Char) (e : Err),
    deserializeTF fuel cs = .error e ↔ specFailsT fuel cs = some e := by
  intro fuel cs e
  match fuel with
  | 0 =>
    constructor
    · intro h
      have h2 : (Except.error Err.emptyData : Except Err Table) = .error e := h
      injection h2 with h2
      show some Err.emptyData = some e
      rw [h2]
    · intro h
      have h2 : some Err.emptyData = some e := h
      injection h2 with h2
      show (Except.error Err.emptyData : Except Err Table) = .error e
      rw [h2]
  | fuel + 1 =>
    by_cases hcs : cs = []
    · subst hcs
      constructor
      · intro h
        have h2 : (Except.error Err.emptyData : Except Err Table) = .error e := h
        injection h2 with h2
        show some Err.emptyData = some e
        rw [h2]
      · intro h
        have h2 : some Err.emptyData = some e := h
        injection h2 with h2
        show (Except.error Err.emptyData : Except Err Table) = .error e
        rw [h2]
    · rw [deserializeTF_succ fuel cs hcs, specFailsT_succ fuel cs hcs]
      by_cases hL : cs.head? = some '['
      · rw [if_pos hL, if_pos hL]
        by_cases hcl : cs.length < 2 ∨ ¬cs.getLast? = some ']'
        · rw [if_pos hcl, if_pos hcl]
          constructor
          · intro h
            injection h with h
            rw [h]
          · intro h
            injection h with h
            rw [h]
        · rw [if_neg hcl, if_neg hcl]
          by_cases h2 : cs.length = 2
          · rw [if_pos h2, if_pos h2]
            simp
          · rw [if_neg h2, if_neg h2, exceptMap_error_iff]
            exact parseItems_error_iff _ _ (errV fuel) _ e
      · rw [if_neg hL, if_neg hL]
        by_cases hB : cs.head? = some '{'
        · rw [if_pos hB, if_pos hB]
          by_cases hcl : cs.length < 2 ∨ ¬cs.getLast? = some '}'
          · rw [if_pos hcl, if_pos hcl]
            constructor
            · intro h
              injection h with h
              rw [h]
            · intro h
              injection h with h
              rw [h]
          · rw [if_neg hcl, if_neg hcl]
            by_cases h2 : cs.length = 2
            · rw [if_pos h2, if_pos h2]
              simp
            · rw [if_neg h2, if_neg h2, exceptMap_error_iff]
              exact parsePairs_error_iff _ _ (errV fuel) _ .nil e
        · rw [if_neg hB, if_neg hB]
          constructor
          · intro h
            injection h with h
            rw [h]
          · intro h
            injection h with h
            rw [h]
end

/-! The claims. -/

/-- C1 (amended): for a well-formed value — int payloads in int32 range, float
payloads in binary32 range, strings free of the characters `"` `,` `[` `]` `{`
`}`, map keys that are scalars whose serialized text additionally contains no
`=`, and map keys distinct and in std::map order also after one-decimal float
formatting — deserializing the serialization succeeds and reproduces the
variant type and scalar content exactly: the parse returns precisely the
normalization of the value (floats replaced by their one-decimal reading,
parsed tables carrying a fresh identity), and the normalization is
observationally equal to the original (floats compared after formatting to one
decimal place). -/
theorem roundtrip_of_wf (v : Value) (h : wfV v = true) :
    Value.deserialize (Value.serialize v) = .ok (normV v) ∧ obsEqV (normV v) v = true := by
  refine ⟨?_, obsEqV_normV v⟩
  show deserializeVF ((serializeV v).length + 1) (serializeV v) = .ok (normV v)
  exact rtV v h _ (by omega)

theorem roundtrip_of_wf_witness :
    Value.deserialize (Value.serialize (.vtable 7 (.mk (.cons (.vstr "x") (.vint 1) .nil) false)))
      = .ok (normV (.vtable 7 (.mk (.cons (.vstr "x") (.vint 1) .nil) false))) ∧
    obsEqV (normV (.vtable 7 (.mk (.cons (.vstr "x") (.vint 1) .nil) false)))
      (.vtable 7 (.mk (.cons (.vstr "x") (.vint 1) .nil) false)) = true :=
  roundtrip_of_wf _ (by decide)

/-- C1 counterexample: the one-element array table holding the string "a,b" —
no embedded double quote, no Table-typed comparison — serializes to the text
["a,b"], whose parse splits at the embedded comma and returns a two-element
array of different strings, not observationally equal to the original. -/
theorem roundtrip_comma_cex :
    Value.serialize (.vtable 0 (.mk (.cons (.vint 0) (.vstr "a,b") .nil) true)) = "[\"a,b\"]" ∧
    Value.deserialize "[\"a,b\"]" = .ok (.vtable 0 (.mk
      (.cons (.vint 0) (.vstr "\"a") (.cons (.vint 1) (.vstr "b\"") .nil)) true)) ∧
    obsEqV
      (.vtable 0 (.mk (.cons (.vint 0) (.vstr "\"a") (.cons (.vint 1) (.vstr "b\"") .nil)) true))
      (.vtable 0 (.mk (.cons (.vint 0) (.vstr "a,b") .nil) true)) = false :=
  ⟨by decide, by decide, by decide⟩

/-- C2 (amended): nesting is tracked by one plain counter that `[` and `{`
both increment and `]` and `}` both decrement, so bracket kinds are not
matched: "[\x7d\x7b]" parses as an array, and in "[a\x7b,b]]" a `{` opened at depth 0
is closed by a `]` while protecting the comma. Only the first and the last
character of the fragment are checked — "[1,2\x7d" is rejected solely because it
does not end in `]`, and "\x7b1,2]" solely because it does not end in `}`; the
final value of the depth counter is never examined. -/
theorem bracket_checks_amended :
    Table.deserialize "[\x7d\x7b]" = .ok (.mk (.cons (.vint 0) (.vstr "\x7d\x7b") .nil) true) ∧
    Table.deserialize "[a\x7b,b]]" = .ok (.mk (.cons (.vint 0) (.vstr "a\x7b,b]") .nil) true) ∧
    Table.deserialize "[1,2\x7d" = .error .malformedArray ∧
    Table.deserialize "\x7b1,2]" = .error .malformedTable :=
  ⟨by decide, by decide, by decide, by decide⟩

/-- C2 counterexample: the claim includes a depth-zero final state among the
structural checks, but no such check exists: parsing "[]]" ends its scan at
depth −1 and still succeeds, returning a one-element array holding the
unquoted string "]". -/
theorem depth_final_unchecked_cex :
    Table.deserialize "[]]" = .ok (.mk (.cons (.vint 0) (.vstr "]") .nil) true) := by decide

/-- C3: Value::deserialize dispatches in a fixed precedence order on every
non-empty fragment: first the numeric attempt — a float parse when the
fragment contains a '.', an integer parse otherwise — whose success is
returned immediately; on numeric failure the literals true and false; then a
quoted string (double quote at both ends, length at least 2); then table
parsing when the fragment starts with '[' or '{'; otherwise the whole
fragment is returned as an unquoted string, never an error. -/
theorem deserialize_dispatch_order (s : String) :
    (∀ v, numM s.data = some v → Value.deserialize s = .ok v) ∧
    (s.data.contains '.' = true → numM s.data = (stofM s.data).map .vfloat) ∧
    (s.data.contains '.' = false → numM s.data = (stoiM s.data).map .vint) ∧
    (s.data ≠ [] → numM s.data = none → s.data = "true".data →
      Value.deserialize s = .ok (.vbool true)) ∧
    (s.data ≠ [] → numM s.data = none → s.data = "false".data →
      Value.deserialize s = .ok (.vbool false)) ∧
    (s.data ≠ [] → numM s.data = none → ¬s.data = "true".data → ¬s.data = "false".data →
      2 ≤ s.data.length → s.data.head? = some '"' → s.data.getLast? = some '"' →
      Value.deserialize s = .ok (.vstr ⟨(s.data.drop 1).dropLast⟩)) ∧
    (s.data ≠ [] → numM s.data = none → ¬s.data = "true".data → ¬s.data = "false".data →
      ¬(2 ≤ s.data.length ∧ s.data.head? = some '"' ∧ s.data.getLast? = some '"') →
      (s.data.head? = some '[' ∨ s.data.head? = some '{') →
      Value.deserialize s = (Table.deserialize s).map (.vtable 0)) ∧
    (s.data ≠ [] → numM s.data = none → ¬s.data = "true".data → ¬s.data = "false".data →
      ¬(2 ≤ s.data.length ∧ s.data.head? = some '"' ∧ s.data.getLast? = some '"') →
      ¬(s.data.head? = some '[' ∨ s.data.head? = some '{') →
      Value.deserialize s = .ok (.vstr s)) := by
  refine ⟨?_, ?_, ?_, ?_, ?_, ?_, ?_, ?_⟩
  · intro v hnum
    have hne : s.data ≠ [] := by
      intro hcs
      rw [hcs, show numM ([] : List Char) = none from by decide] at hnum
      exact absurd hnum (by simp)
    show deserializeVF (s.data.length + 1) s.data = .ok v
    exact deserializeVF_succ_some hne hnum
  · intro h
    rw [numM, if_pos h]
  · intro h
    rw [numM, if_neg (by rw [h]; exact Bool.false_ne_true)]
  · intro hne hnum heq
    show deserializeVF (s.data.length + 1) s.data = .ok (.vbool true)
    rw [deserializeVF_succ_none hne hnum, if_pos heq]
  · intro hne hnum heq
    show deserializeVF (s.data.length + 1) s.data = .ok (.vbool false)
    rw [deserializeVF_succ_none hne hnum, if_neg (by rw [heq]; decide), if_pos heq]
  · intro hne hnum ht hf h2 hh hl
    show deserializeVF (s.data.length + 1) s.data = .ok (.vstr ⟨(s.data.drop 1).dropLast⟩)
    rw [deserializeVF_succ_none hne hnum, if_neg ht, if_neg hf, if_pos ⟨h2, hh, hl⟩]
  · intro hne hnum ht hf hq hbr
    show deserializeVF (s.data.length + 1) s.data = (Table.deserialize s).map (.vtable 0)
    rw [deserializeVF_succ_none hne hnum, if_neg ht, if_neg hf, if_neg hq, if_pos hbr]
    rw [show deserializeTF s.data.length s.data = deserializeTF (s.data.length + 1) s.data from
      deserializeTF_congr _ _ _ (by omega) (by omega)]
    rfl
  · intro hne hnum ht hf hq hbr
    show deserializeVF (s.data.length + 1) s.data = .ok (.vstr s)
    rw [deserializeVF_succ_none hne hnum, if_neg ht, if_neg hf, if_neg hq, if_neg hbr]

theorem deserialize_dispatch_order_witness :
    Value.deserialize "12" = .ok (.vint 12) ∧ Value.deserialize "tru" = .ok (.vstr "tru") :=
  ⟨(deserialize_dispatch_order "12").1 (.vint 12) (by decide),
   (deserialize_dispatch_order "tru").2.2.2.2.2.2.2 (by decide) (by decide) (by decide)
     (by decide) (by decide) (by decide)⟩

/-- C4: the Value total order compares primarily by variant tag in declaration
order (int 0, float 1, bool 2, string 3, table 4), then by the payload's
natural order within a tag — integer order, rational order, false before
true, byte-lexicographic order on the string's characters — while two
table-valued Values are ordered and compared equal by the identity of the
shared_ptr allocation alone, so two structurally identical but distinct
tables are never equal; equality mirrors the order: across tags it is false,
within a tag it is payload equality (identity equality for tables), and in
general it holds exactly when neither side is strictly less. -/
theorem value_order_spec :
    (∀ a b : Value, vidx a ≠ vidx b →
      ltValue a b = decide (vidx a < vidx b) ∧ eqValue a b = false) ∧
    (∀ x y : Int, ltValue (.vint x) (.vint y) = decide (x < y) ∧
      eqValue (.vint x) (.vint y) = decide (x = y)) ∧
    (∀ x y : ℚ, ltValue (.vfloat x) (.vfloat y) = decide (x < y) ∧
      eqValue (.vfloat x) (.vfloat y) = decide (x = y)) ∧
    (∀ x y : Bool, ltValue (.vbool x) (.vbool y) = (!x && y) ∧
      eqValue (.vbool x) (.vbool y) = (x == y)) ∧
    (∀ x y : String, (ltValue (.vstr x) (.vstr y) = true ↔ x.data < y.data) ∧
      eqValue (.vstr x) (.vstr y) = decide (x = y)) ∧
    (∀ (a1 a2 : Nat) (t1 t2 : Table),
      ltValue (.vtable a1 t1) (.vtable a2 t2) = decide (a1 < a2) ∧
      eqValue (.vtable a1 t1) (.vtable a2 t2) = decide (a1 = a2)) ∧
    (∀ (a1 a2 : Nat) (t : Table), a1 ≠ a2 → eqValue (.vtable a1 t) (.vtable a2 t) = false) ∧
    (∀ a b : Value, eqValue a b = (!ltValue a b && !ltValue b a)) := by
  refine ⟨?_, ?_, ?_, ?_, ?_, ?_, ?_, eqValue_mirror⟩
  · intro a b h
    cases a <;> cases b <;>
      first
      | exact absurd rfl h
      | exact ⟨rfl, rfl⟩
  · exact fun x y => ⟨rfl, rfl⟩
  · exact fun x y => ⟨rfl, rfl⟩
  · exact fun x y => ⟨rfl, rfl⟩
  · exact fun x y => ⟨strLt_iff x.data y.data, rfl⟩
  · exact fun a1 a2 t1 t2 => ⟨rfl, rfl⟩
  · intro a1 a2 t h
    show decide (a1 = a2) = false
    exact decide_eq_false h

theorem value_order_spec_witness :
    (ltValue (.vint 3) (.vbool true) = decide (vidx (.vint 3) < vidx (.vbool true)) ∧
      eqValue (.vint 3) (.vbool true) = false) ∧
    eqValue (.vtable 1 (.mk .nil false)) (.vtable 2 (.mk .nil false)) = false :=
  ⟨(value_order_spec).1 (.vint 3) (.vbool true) (by decide),
   (value_order_spec).2.2.2.2.2.2.1 1 2 (.mk .nil false) (by decide)⟩

/-- C5: map-mode serialization emits its pairs sorted by the Value order of
the keys, not by insertion order: the std::map insertion of the model keeps
the entry list sorted under every insert, the map built by storing key "y"
before key "x" serializes with "x" first, and no trailing comma is emitted —
the character before the closing brace is never a comma. -/
theorem map_serialize_sorted :
    (∀ (k v : Value) (es : Entries), sortedE es = true → sortedE (mapInsert k v es) = true) ∧
    Table.serialize (Table.set (Table.set (.mk .nil false) (.vstr "y") (.vint 1))
      (.vstr "x") (.vint 2)) = "\x7b\"x\"=2,\"y\"=1\x7d" ∧
    (∀ (es : Entries) (c : Char), (serializeObjE es).getLast? = some c → ¬c = ',') :=
  ⟨sortedE_mapInsert, by decide, serializeObjE_getLast_ne_comma⟩

theorem map_serialize_sorted_witness :
    sortedE (mapInsert (.vstr "b") (.vint 1)
      (.cons (.vstr "a") (.vint 0) (.cons (.vstr "c") (.vint 2) .nil))) = true :=
  (map_serialize_sorted).1 _ _ _ (by decide)

/-- C6: a segment between top-level commas that trims to empty is silently
skipped, so trailing commas are legal: "[1,2,3,]" parses to the same
3-element array as "[1,2,3]", and the text [{"a"=1,},{"b"=2,},] parses to a
2-element array of single-key objects. -/
theorem trailing_comma_ok :
    Table.deserialize "[1,2,3,]" = .ok (Table.ofVector [.vint 1, .vint 2, .vint 3]) ∧
    Table.deserialize "[1,2,3,]" = Table.deserialize "[1,2,3]" ∧
    Table.deserialize "[\x7b\"a\"=1,\x7d,\x7b\"b\"=2,\x7d,]" = .ok (Table.ofVector
      [.vtable 0 (.mk (.cons (.vstr "a") (.vint 1) .nil) false),
       .vtable 0 (.mk (.cons (.vstr "b") (.vint 2) .nil) false)]) :=
  ⟨by decide, by decide, by decide⟩

/-- C7: parsing fails with a typed error and no partial value exactly in the
claimed situations.  The first conjunct is the "exactly when", over every
input and every error: Value::deserialize returns an error precisely as the
spec's enumeration (specFailsV: empty fragment; bracket-headed fragment
lacking its matching closing bracket, recursively through the entries of well
bracketed bodies; object entry lacking '=') predicts.  The remaining
conjuncts state each condition directly: the empty input and the spec's "["
example; a universal unclosed-bracket theorem for each bracket kind; the
universal missing-'=' failure of the object entry loop; and the converse
guarantee that every non-empty fragment not headed by a bracket parses
successfully. -/
theorem parse_error_conditions :
    (∀ (s : String) (e : Err),
      Value.deserialize s = .error e ↔ specFailsV (s.data.length + 1) s.data = some e) ∧
    Value.deserialize "" = .error .emptyData ∧
    Value.deserialize "[" = .error .malformedArray ∧
    Value.deserialize "\x7b\"a\"\x7d" = .error .missingEq ∧
    (∀ s : String, s.data.head? = some '[' →
      s.data.length < 2 ∨ ¬s.data.getLast? = some ']' →
      Value.deserialize s = .error .malformedArray) ∧
    (∀ s : String, s.data.head? = some '{' →
      s.data.length < 2 ∨ ¬s.data.getLast? = some '}' →
      Value.deserialize s = .error .malformedTable) ∧
    (∀ (fuel : Nat) (seg : List Char) (rest : List (List Char)) (acc : Entries),
      ¬trimChars seg = [] → '=' ∉ trimChars seg →
      parsePairs (fun l => deserializeVF fuel l) (seg :: rest) acc = .error .missingEq) ∧
    (∀ s : String, s.data ≠ [] → ¬s.data.head? = some '[' → ¬s.data.head? = some '{' →
      ∃ v, Value.deserialize s = .ok v) := by
  refine ⟨fun s e => errV (s.data.length + 1) s.data e, by decide, by decide, by decide,
    ?_, ?_, ?_, ?_⟩
  · intro s hh hcl
    have hne : s.data ≠ [] := by
      intro h0
      rw [h0] at hh
      exact absurd hh (by simp)
    show deserializeVF (s.data.length + 1) s.data = .error .malformedArray
    rw [deserializeVF_bracket _ _ hne (Or.inl hh)]
    obtain ⟨f, hfe⟩ : ∃ f, s.data.length = f + 1 :=
      ⟨s.data.length - 1, by have := List.length_pos.mpr hne; omega⟩
    rw [hfe, deserializeTF_succ f s.data hne, if_pos hh, if_pos hcl]
    rfl
  · intro s hh hcl
    have hne : s.data ≠ [] := by
      intro h0
      rw [h0] at hh
      exact absurd hh (by simp)
    have hh2 : ¬s.data.head? = some '[' := by
      rw [hh]
      decide
    show deserializeVF (s.data.length + 1) s.data = .error .malformedTable
    rw [deserializeVF_bracket _ _ hne (Or.inr hh)]
    obtain ⟨f, hfe⟩ : ∃ f, s.data.length = f + 1 :=
      ⟨s.data.length - 1, by have := List.length_pos.mpr hne; omega⟩
    rw [hfe, deserializeTF_succ f s.data hne, if_neg hh2, if_pos hh,
      if_pos hcl]
    rfl
  · intro fuel seg rest acc hka hne2
    rw [parsePairs, if_neg (by simp [isEmpty_false_of_ne_nil hka]),
      splitFirstEq_none hne2]
  · intro s hne h1 h2
    show ∃ v, deserializeVF (s.data.length + 1) s.data = .ok v
    exact deserializeVF_nonbracket_ok s.data.length s.data hne h1 h2

theorem parse_error_conditions_witness :
    (∃ v, Value.deserialize "x" = .ok v) ∧
    Value.deserialize "[12" = .error .malformedArray :=
  ⟨(parse_error_conditions).2.2.2.2.2.2.2 "x" (by decide) (by decide) (by decide),
   (parse_error_conditions).2.2.2.2.1 "[12" (by decide) (by decide)⟩

/-- C8: for an object-form segment, the first '=' of the trimmed segment
splits key text from value text — the first occurrence wins even when the
value text contains a later '=' — and both sides are independently trimmed
and recursively parsed as Values, the pair then inserted into the map (shown
here for sides whose trimmed text is non-empty; C10 covers the empty case). -/
theorem first_eq_splits (fuel : Nat) (seg a b : List Char) (rest : List (List Char))
    (acc : Entries) (hsplit : trimChars seg = a ++ '=' :: b) (ha : '=' ∉ a)
    (hka : ¬trimChars a = []) (hkb : ¬trimChars b = []) :
    parsePairs (fun l => deserializeVF fuel l) (seg :: rest) acc =
      (deserializeVF fuel (trimChars a)).bind fun kp =>
        (deserializeVF fuel (trimChars b)).bind fun vp =>
          parsePairs (fun l => deserializeVF fuel l) rest (mapInsert kp vp acc) := by
  rw [parsePairs, hsplit]
  rw [if_neg (by simp [isEmpty_false_of_ne_nil
    (by simp : (a ++ '=' :: b) ≠ ([] : List Char))])]
  rw [splitFirstEq_append _ ha]
  simp only
  rw [if_neg (by simp [isEmpty_false_of_ne_nil hka, isEmpty_false_of_ne_nil hkb])]
  rfl

theorem first_eq_splits_witness :
    parsePairs (fun l => deserializeVF 12 l) ["\"a\"=\"b=c\"".data] .nil =
      (deserializeVF 12 (trimChars "\"a\"".data)).bind fun kp =>
        (deserializeVF 12 (trimChars "\"b=c\"".data)).bind fun vp =>
          parsePairs (fun l => deserializeVF 12 l) [] (mapInsert kp vp .nil) :=
  first_eq_splits 12 "\"a\"=\"b=c\"".data "\"a\"".data "\"b=c\"".data [] .nil
    (by decide) (by decide) (by decide) (by decide)

/-- C9 (amended): constructing an array-mode Table from an n-element sequence
assigns the consecutive integer keys 0, 1, …, n−1 in input order, marks the
table as array, and reading it back through the get_data snapshot accessor
returns exactly the original sequence; the invariant is established by this
construction but is not preserved by Table::operator[] assignment (see the
counterexample), which C++ exposes on array-mode tables unchecked. -/
theorem array_invariant_amended (vs : List Value) :
    arrayInv (Table.ofVector vs) = true ∧
    (Table.ofVector vs).get_is_array = true ∧
    Table.get_data (Table.ofVector vs) = .inr vs := by
  refine ⟨?_, rfl, ?_⟩
  · show keysConsecutive (ofVectorAux vs 0 .nil) 0 = true
    rw [ofVectorAux_eq vs 0 .nil rfl, appendE]
    exact keysConsecutive_enumE vs 0
  · show Table.get_data (.mk (ofVectorAux vs 0 .nil) true) = .inr vs
    rw [Table.get_data, ofVectorAux_eq vs 0 .nil rfl, appendE, valuesE_enumE]

/-- C9 counterexample: the claim says the consecutive-keys invariant is
preserved by the table's operations, but writing through operator[] at an
out-of-range index key leaves an array-mode table whose keys are 0 and 2 —
the invariant does not survive the exposed mutation interface. -/
theorem array_invariant_broken_cex :
    (Table.set (Table.ofVector [.vint 10]) (.vint 2) (.vint 5)).get_is_array = true ∧
    arrayInv (Table.set (Table.ofVector [.vint 10]) (.vint 2) (.vint 5)) = false :=
  ⟨by decide, by decide⟩

/-- C10: an object segment that does contain '=' but whose key side or value
side trims to the empty string is silently dropped rather than raising an
error: {"a"=} and {=1} both parse to the empty map table, and in
{"a"=,"b"=2} the dropped entry does not prevent the later entry from being
stored. -/
theorem empty_side_dropped :
    Table.deserialize "\x7b\"a\"=\x7d" = .ok (.mk .nil false) ∧
    Table.deserialize "\x7b=1\x7d" = .ok (.mk .nil false) ∧
    Table.deserialize "\x7b\"a\"=,\"b\"=2\x7d" = .ok (.mk (.cons (.vstr "b") (.vint 2) .nil) false) :=
  ⟨by decide, by decide, by decide⟩

end Netvent
